import Mathlib

/-!
# Verification of the L2 Password Manager core protocols

Shallow embedding of the cryptographic vault engine of the
L2-ootm/L2-Password-Manager repository, together with proofs and
refutations of the behavioural claims made about it in the
specification.  JavaScript strings are modelled as `List Char`, byte
buffers as `List Nat` (each entry `< 256`), and the platform
primitives (AES-GCM, SHA-256, HMAC, UTF-8 and JSON codecs) are taken
as abstract parameters carrying only their documented round-trip
contracts.  Everything else — chunking, tagging, sorting, validation,
base64, hex, the duress sequencing, the scheduler and the TOTP
pipeline — is translated directly from the source.
-/

namespace L2Vault

/-! ## Decimal printing and parsing (model of JS template `${n}` and `parseInt`) -/

/-- Fuel-driven digit expansion (structural recursion keeps the
definition kernel-reducible for concrete evaluation). -/
def natReprAux : Nat → Nat → List Char
  | 0, _ => []
  | fuel + 1, n =>
      if n < 10 then [Nat.digitChar n]
      else natReprAux fuel (n / 10) ++ [Nat.digitChar (n % 10)]

/-- Decimal representation of a natural number, as produced by the
JavaScript template literal `${n}` for a nonnegative integer. -/
def natRepr (n : Nat) : List Char := natReprAux (n + 1) n

theorem natReprAux_congr :
    ∀ (n f₁ f₂ : Nat), n < f₁ → n < f₂ → natReprAux f₁ n = natReprAux f₂ n := by
  intro n
  induction n using Nat.strong_induction_on with
  | _ n ih =>
    intro f₁ f₂ h₁ h₂
    match f₁, f₂ with
    | g₁ + 1, g₂ + 1 =>
      by_cases h : n < 10
      · simp [natReprAux, h]
      · rw [natReprAux, natReprAux, if_neg h, if_neg h]
        have hlt : n / 10 < n := Nat.div_lt_self (by omega) (by omega)
        rw [ih (n / 10) hlt g₁ g₂ (by omega) (by omega)]

/-- The recursive unfolding of `natRepr`. -/
theorem natRepr_eq (n : Nat) :
    natRepr n = if n < 10 then [Nat.digitChar n]
      else natRepr (n / 10) ++ [Nat.digitChar (n % 10)] := by
  rw [natRepr, natReprAux]
  by_cases h : n < 10
  · rw [if_pos h, if_pos h]
  · rw [if_neg h, if_neg h]
    have hlt : n / 10 < n := Nat.div_lt_self (by omega) (by omega)
    rw [natReprAux_congr (n / 10) n (n / 10 + 1) (by omega) (by omega)]
    rfl

/-- Accumulating decimal parser, the model of `parseInt` applied to a
digit-only string. -/
def parseDigitsAux (acc : Nat) : List Char → Nat
  | [] => acc
  | c :: cs => parseDigitsAux (acc * 10 + (c.toNat - 48)) cs

def parseDigits (cs : List Char) : Nat := parseDigitsAux 0 cs

theorem digitChar_toNat {d : Nat} (h : d < 10) : (Nat.digitChar d).toNat = 48 + d := by
  interval_cases d <;> rfl

theorem digitChar_isDigit {d : Nat} (h : d < 10) : (Nat.digitChar d).isDigit := by
  interval_cases d <;> rfl

theorem parseDigitsAux_nil (acc : Nat) : parseDigitsAux acc [] = acc := rfl

theorem parseDigitsAux_cons (acc : Nat) (c : Char) (cs : List Char) :
    parseDigitsAux acc (c :: cs) = parseDigitsAux (acc * 10 + (c.toNat - 48)) cs := rfl

theorem parseDigitsAux_append (acc : Nat) (l₁ l₂ : List Char) :
    parseDigitsAux acc (l₁ ++ l₂) = parseDigitsAux (parseDigitsAux acc l₁) l₂ := by
  induction l₁ generalizing acc with
  | nil => rfl
  | cons c cs ih =>
      rw [List.cons_append, parseDigitsAux_cons, parseDigitsAux_cons, ih]

theorem parseDigitsAux_repr (acc n : Nat) :
    parseDigitsAux acc (natRepr n) = acc * 10 ^ (natRepr n).length + n := by
  induction n using Nat.strong_induction_on generalizing acc with
  | _ n ih =>
    by_cases h : n < 10
    · rw [natRepr_eq, if_pos h]
      rw [parseDigitsAux_cons, parseDigitsAux_nil, digitChar_toNat h]
      simp
    · rw [natRepr_eq, if_neg h]
      rw [parseDigitsAux_append]
      have hdiv : n / 10 < n := Nat.div_lt_self (by omega) (by omega)
      rw [ih (n / 10) hdiv acc]
      have h10 : n % 10 < 10 := Nat.mod_lt _ (by omega)
      rw [parseDigitsAux_cons, parseDigitsAux_nil, digitChar_toNat h10]
      simp only [List.length_append, List.length_singleton, pow_succ, pow_one]
      ring_nf
      omega

/-- Parsing the decimal representation returns the original number. -/
theorem parseDigits_repr (n : Nat) : parseDigits (natRepr n) = n := by
  simpa [parseDigits] using parseDigitsAux_repr 0 n

/-- Every character of a decimal representation is an ASCII digit. -/
theorem natRepr_isDigit (n : Nat) : ∀ c ∈ natRepr n, c.isDigit := by
  induction n using Nat.strong_induction_on with
  | _ n ih =>
    by_cases h : n < 10
    · rw [natRepr_eq, if_pos h]
      intro c hc
      simp at hc
      subst hc
      exact digitChar_isDigit h
    · rw [natRepr_eq, if_neg h]
      intro c hc
      rcases List.mem_append.mp hc with h1 | h2
      · exact ih (n / 10) (Nat.div_lt_self (by omega) (by omega)) c h1
      · simp at h2
        subst h2
        exact digitChar_isDigit (Nat.mod_lt _ (by omega))

theorem natRepr_ne_nil (n : Nat) : natRepr n ≠ [] := by
  rw [natRepr_eq]
  split <;> simp

/-! ## Base64 (model of the platform `btoa` / `atob` on binary strings) -/

def b64Alphabet : List Char :=
  "ABCDEFGHIJKLMNOPQRSTUVWXYZabcdefghijklmnopqrstuvwxyz0123456789+/".data

def b64Char (v : Nat) : Char := b64Alphabet.getD v 'A'

def b64DecodeChar (c : Char) : Option Nat :=
  let i := b64Alphabet.indexOf c
  if i < 64 then some i else none

/-- `btoa`: encode a byte sequence (a JS "binary string") to base64. -/
def base64Encode : List Nat → List Char
  | [] => []
  | [a] => [b64Char (a / 4), b64Char (a % 4 * 16), '=', '=']
  | [a, b] => [b64Char (a / 4), b64Char (a % 4 * 16 + b / 16), b64Char (b % 16 * 4), '=']
  | a :: b :: c :: rest =>
      b64Char (a / 4) :: b64Char (a % 4 * 16 + b / 16) ::
      b64Char (b % 16 * 4 + c / 64) :: b64Char (c % 64) :: base64Encode rest

/-- `atob`: decode a base64 string back to bytes; `none` models the
`InvalidCharacterError` the platform throws on malformed input. -/
def base64Decode : List Char → Option (List Nat)
  | [] => some []
  | w :: x :: y :: z :: rest => do
      let a ← b64DecodeChar w
      let b ← b64DecodeChar x
      if y = '=' then
        if z = '=' ∧ rest = [] then pure [a * 4 + b / 16] else none
      else do
        let c ← b64DecodeChar y
        if z = '=' then
          if rest = [] then pure [a * 4 + b / 16, b % 16 * 16 + c / 4] else none
        else do
          let d ← b64DecodeChar z
          let tail ← base64Decode rest
          pure ((a * 4 + b / 16) :: (b % 16 * 16 + c / 4) :: (c % 4 * 64 + d) :: tail)
  | _ => none

theorem b64DecodeChar_b64Char : ∀ v < 64, b64DecodeChar (b64Char v) = some v := by
  decide

theorem b64Char_ne_eq : ∀ v < 64, b64Char v ≠ '=' := by decide

theorem base64Encode_ne_nil {l : List Nat} (h : l ≠ []) : base64Encode l ≠ [] := by
  match l with
  | [] => exact absurd rfl h
  | [a] => simp [base64Encode]
  | [a, b] => simp [base64Encode]
  | a :: b :: c :: rest => simp [base64Encode]

/-- Decoding an encoded byte sequence returns the original bytes. -/
theorem base64_roundTrip : ∀ l : List Nat, (∀ b ∈ l, b < 256) →
    base64Decode (base64Encode l) = some l
  | [], _ => rfl
  | [a], h => by
      have ha : a < 256 := h a (by simp)
      have h1 : a / 4 < 64 := by omega
      have h2 : a % 4 * 16 < 64 := by omega
      rw [base64Encode, base64Decode]
      rw [b64DecodeChar_b64Char _ h1, b64DecodeChar_b64Char _ h2]
      simp
      omega
  | [a, b], h => by
      have ha : a < 256 := h a (by simp)
      have hb : b < 256 := h b (by simp)
      have h1 : a / 4 < 64 := by omega
      have h2 : a % 4 * 16 + b / 16 < 64 := by omega
      have h3 : b % 16 * 4 < 64 := by omega
      rw [base64Encode, base64Decode]
      rw [b64DecodeChar_b64Char _ h1, b64DecodeChar_b64Char _ h2]
      simp only [Option.bind_eq_bind, Option.some_bind]
      rw [if_neg (b64Char_ne_eq _ h3)]
      rw [b64DecodeChar_b64Char _ h3]
      simp
      constructor <;> omega
  | [a, b, c], h => by
      have ha : a < 256 := h a (by simp)
      have hb : b < 256 := h b (by simp)
      have hc : c < 256 := h c (by simp)
      have h1 : a / 4 < 64 := by omega
      have h2 : a % 4 * 16 + b / 16 < 64 := by omega
      have h3 : b % 16 * 4 + c / 64 < 64 := by omega
      have h4 : c % 64 < 64 := by omega
      rw [show base64Encode [a, b, c] =
            b64Char (a / 4) :: b64Char (a % 4 * 16 + b / 16) ::
            b64Char (b % 16 * 4 + c / 64) :: b64Char (c % 64) ::
            base64Encode [] from rfl]
      rw [base64Decode]
      rw [b64DecodeChar_b64Char _ h1, b64DecodeChar_b64Char _ h2]
      simp only [Option.bind_eq_bind, Option.some_bind]
      rw [if_neg (b64Char_ne_eq _ h3)]
      rw [b64DecodeChar_b64Char _ h3]
      simp only [Option.some_bind]
      rw [if_neg (b64Char_ne_eq _ h4)]
      rw [b64DecodeChar_b64Char _ h4]
      simp [base64Decode]
      refine ⟨by omega, by omega, by omega⟩
  | a :: b :: c :: d :: rest, h => by
      have ha : a < 256 := h a (by simp)
      have hb : b < 256 := h b (by simp)
      have hc : c < 256 := h c (by simp)
      have h1 : a / 4 < 64 := by omega
      have h2 : a % 4 * 16 + b / 16 < 64 := by omega
      have h3 : b % 16 * 4 + c / 64 < 64 := by omega
      have h4 : c % 64 < 64 := by omega
      have ih := base64_roundTrip (d :: rest) (fun x hx => h x (by simp at hx ⊢; tauto))
      rw [show base64Encode (a :: b :: c :: d :: rest) =
            b64Char (a / 4) :: b64Char (a % 4 * 16 + b / 16) ::
            b64Char (b % 16 * 4 + c / 64) :: b64Char (c % 64) ::
            base64Encode (d :: rest) from rfl]
      rw [base64Decode]
      rw [b64DecodeChar_b64Char _ h1, b64DecodeChar_b64Char _ h2]
      simp only [Option.bind_eq_bind, Option.some_bind]
      rw [if_neg (b64Char_ne_eq _ h3)]
      rw [b64DecodeChar_b64Char _ h3]
      simp only [Option.some_bind]
      rw [if_neg (b64Char_ne_eq _ h4)]
      rw [b64DecodeChar_b64Char _ h4, ih]
      simp
      refine ⟨by omega, by omega, by omega⟩

/-! ## Hex digest rendering (model of `b.toString(16).padStart(2,'0')` join) -/

def hexDigit (d : Nat) : Char := Nat.digitChar d

/-- Render a byte sequence as lowercase hex, two digits per byte. -/
def bytesToHex : List Nat → List Char
  | [] => []
  | b :: bs => hexDigit (b / 16) :: hexDigit (b % 16) :: bytesToHex bs

/-! ## Chunk splitting (model of `splitIntoChunks(data, 500)` in vault-switcher.js) -/

/-- Maximum number of characters per QR chunk (`CHUNK_SIZE` in the source). -/
def CHUNK_SIZE : Nat := 500

/-- `splitIntoChunks`: slice a string into consecutive pieces of at most
`CHUNK_SIZE` characters. -/
def splitIntoChunks (l : List Char) : List (List Char) :=
  if _h : l = [] then []
  else l.take CHUNK_SIZE :: splitIntoChunks (l.drop CHUNK_SIZE)
  termination_by l.length
  decreasing_by
    have : l.length ≠ 0 := fun h0 => _h (List.eq_nil_of_length_eq_zero h0)
    simp only [List.length_drop, CHUNK_SIZE]
    omega

theorem splitIntoChunks_flatten (l : List Char) : (splitIntoChunks l).flatten = l := by
  by_cases h : l = []
  · subst h; rw [splitIntoChunks]; simp
  · rw [splitIntoChunks, dif_neg h]
    rw [List.flatten_cons, splitIntoChunks_flatten (l.drop CHUNK_SIZE),
        List.take_append_drop]
  termination_by l.length
  decreasing_by
    have : l.length ≠ 0 := fun h0 => h (List.eq_nil_of_length_eq_zero h0)
    simp only [List.length_drop, CHUNK_SIZE]
    omega

theorem splitIntoChunks_ne_nil {l : List Char} (h : l ≠ []) : splitIntoChunks l ≠ [] := by
  rw [splitIntoChunks, dif_neg h]
  simp

/-! ## JS lexicographic string comparison (used on `HH:MM` time strings) -/

/-- JavaScript `<` on strings: lexicographic comparison of UTF-16 units. -/
def jsStrLt : List Char → List Char → Bool
  | [], [] => false
  | [], _ :: _ => true
  | _ :: _, [] => false
  | a :: as, b :: bs => if a < b then true else if b < a then false else jsStrLt as bs

/-- JavaScript `s1 <= s2` on strings. -/
def jsStrLe (s₁ s₂ : List Char) : Bool := !jsStrLt s₂ s₁

/-- JavaScript `s1 >= s2` on strings. -/
def jsStrGe (s₁ s₂ : List Char) : Bool := !jsStrLt s₁ s₂

/-! ## Transfer codec (src/ui/vault-switcher.js, QR sync module)

The AES-GCM cipher, the PBKDF2 derivation, UTF-8 and `JSON` are
platform primitives; they appear as abstract function parameters, and
each theorem that needs their documented behaviour (AEAD round trip,
serializer round trip) assumes exactly that behaviour and nothing
else.  Chunking, tagging, header parsing, validation and sorting are
translated from the source. -/

/-- JS `x || ''` applied to a string-valued field. -/
def orEmpty (s : List Char) : List Char := if s = [] then [] else s

theorem orEmpty_eq (s : List Char) : orEmpty s = s := by
  unfold orEmpty
  split <;> simp_all

/-- Minimal per-record field set carried by a transfer
(`{t, u, p, c, n}` in `encodeForQR`). -/
structure MinCred where
  t : List Char
  u : List Char
  p : List Char
  c : List Char
  n : List Char
  deriving DecidableEq, Repr

/-- Full decrypted credential as the vault UI handles it. -/
structure PlainCred where
  id : Nat
  title : List Char
  username : List Char
  password : List Char
  category : List Char
  notes : List Char
  createdAt : Nat
  updatedAt : Nat
  deriving DecidableEq, Repr

/-- Field projection performed at the top of `encodeForQR`. -/
def minify (c : PlainCred) : MinCred :=
  { t := c.title
    u := orEmpty c.username
    p := c.password
    c := orEmpty c.category
    n := orEmpty c.notes }

/-- Key-derivation configuration, recording which KDF a code path
invokes and with which parameters. -/
inductive KDFAlg where
  | pbkdf2
  | argon2id
  deriving DecidableEq, Repr

inductive KDFHash where
  | sha256
  deriving DecidableEq, Repr

structure KDFParams where
  alg : KDFAlg
  hash : Option KDFHash
  iterations : Option Nat
  memoryKiB : Option Nat
  parallelism : Option Nat
  keyBits : Nat
  saltBytes : Nat
  deriving DecidableEq, Repr

/-- The derivation configuration hard-coded in `encryptTransferData` /
`decryptTransferData`: `PBKDF2` over `SHA-256` with `100000`
iterations, a 256-bit AES-GCM key and a 16-byte salt. -/
def transferKDFParams : KDFParams :=
  { alg := .pbkdf2
    hash := some .sha256
    iterations := some 100000
    memoryKiB := none
    parallelism := none
    keyBits := 256
    saltBytes := 16 }

/-- `encryptTransferData(data, password)`: derive a key from the
transfer password and the fresh salt, AES-GCM-encrypt the UTF-8 bytes
of `data` under the fresh IV, and return `salt ++ iv ++ ciphertext`.
The caller-supplied `salt`/`iv` model the `crypto.getRandomValues`
outputs; `kdf`, `aesEnc` and `utf8` model the Web Crypto / TextEncoder
primitives. -/
def encryptTransferData
    (kdf : KDFParams → List Char → List Nat → List Nat)
    (aesEnc : List Nat → List Nat → List Nat → List Nat)
    (utf8 : List Char → List Nat)
    (salt iv : List Nat) (data : List Char) (pw : List Char) : List Nat :=
  let key := kdf transferKDFParams pw salt
  salt ++ iv ++ aesEnc key iv (utf8 data)

/-- `decryptTransferData(encryptedString, password)`: split off the
16-byte salt and 12-byte IV, re-derive the key, AES-GCM-decrypt and
UTF-8-decode.  `none` models the `AuthenticationError` on a failed
tag check. -/
def decryptTransferData
    (kdf : KDFParams → List Char → List Nat → List Nat)
    (aesDec : List Nat → List Nat → List Nat → Option (List Nat))
    (utf8Dec : List Nat → List Char)
    (bytes : List Nat) (pw : List Char) : Option (List Char) :=
  let salt := bytes.take 16
  let iv := (bytes.drop 16).take 12
  let ct := bytes.drop 28
  let key := kdf transferKDFParams pw salt
  (aesDec key iv ct).map utf8Dec

/-- The transfer format tag (`VERSION_PREFIX` constant `"L2V1:"`). -/
def versionTag : List Char := ['L', '2', 'V', '1', ':']

/-- One tagged chunk string: `"L2V1:<index>/<total>:<payload>"`. -/
def tagChunk (i total : Nat) (c : List Char) : List Char :=
  versionTag ++ natRepr i ++ '/' :: (natRepr total ++ ':' :: c)

/-- Tag a list of chunks with 1-based indices (the final `map` of
`encodeForQR`). -/
def tagAll (total : Nat) : Nat → List (List Char) → List (List Char)
  | _, [] => []
  | i, c :: cs => tagChunk i total c :: tagAll total (i + 1) cs

/-- `encodeForQR(credentials, transferPassword)`. -/
def encodeForQR
    (jsonS : List MinCred → List Char)
    (kdf : KDFParams → List Char → List Nat → List Nat)
    (aesEnc : List Nat → List Nat → List Nat → List Nat)
    (utf8 : List Char → List Nat)
    (salt iv : List Nat)
    (creds : List PlainCred) (pw : List Char) : List (List Char) :=
  let transferData := creds.map minify
  let jsonData := jsonS transferData
  let encryptedData := encryptTransferData kdf aesEnc utf8 salt iv jsonData pw
  let base64Data := base64Encode encryptedData
  let chunks := splitIntoChunks base64Data
  tagAll chunks.length 1 chunks

/-- Failure modes of the transfer decoder.  `incomplete` models the
`Missing chunks: got X, expected Y` error (the spec's
`IncompleteTransferError`); `emptyInput` models the `TypeError` raised
by reading `parsed[0]` of an empty array; `authError` models the AEAD
`AuthenticationError`. -/
inductive TransferError where
  | invalidFormat
  | invalidHeader
  | emptyInput
  | incomplete (got expected : Nat)
  | badBase64
  | authError
  | parseError
  deriving DecidableEq, Repr

/-- Parsed chunk header as built in `sortAndValidateChunks`. -/
structure ChunkInfo where
  index : Nat
  total : Nat
  payload : List Char
  deriving DecidableEq, Repr

instance : Inhabited ChunkInfo := ⟨⟨0, 0, []⟩⟩

/-- Parse one chunk: the `startsWith(VERSION_PREFIX)` check followed
by the `^L2V1:(\d+)\/(\d+):` match. -/
def parseChunkE (pl : List Char) : Except TransferError ChunkInfo :=
  if pl.take 5 ≠ versionTag then .error .invalidFormat
  else
    let rest := pl.drop 5
    let d1 := rest.takeWhile Char.isDigit
    if d1 = [] then .error .invalidHeader
    else
      match rest.dropWhile Char.isDigit with
      | '/' :: r2 =>
          let d2 := r2.takeWhile Char.isDigit
          if d2 = [] then .error .invalidHeader
          else
            match r2.dropWhile Char.isDigit with
            | ':' :: _ => .ok ⟨parseDigits d1, parseDigits d2, pl⟩
            | _ => .error .invalidHeader
      | _ => .error .invalidHeader

/-- Left-to-right effectful map: the model of `payloads.map(...)` in
which the mapped function may throw. -/
def mapExcept (f : α → Except ε β) : List α → Except ε (List β)
  | [] => .ok []
  | a :: as => do
      let b ← f a
      let bs ← mapExcept f as
      .ok (b :: bs)

/-- Stable insertion used to model `parsed.sort((a,b) => a.index - b.index)`. -/
def insertChunk (a : ChunkInfo) : List ChunkInfo → List ChunkInfo
  | [] => [a]
  | b :: bs => if a.index ≤ b.index then a :: b :: bs else b :: insertChunk a bs

def sortChunks : List ChunkInfo → List ChunkInfo
  | [] => []
  | a :: as => insertChunk a (sortChunks as)

/-- `sortAndValidateChunks(payloads)`: parse every header, read the
declared total off the FIRST chunk, require `parsed.length == total`,
sort by index and return the (still tagged) payload strings. -/
def sortAndValidateChunks (payloads : List (List Char)) :
    Except TransferError (List (List Char)) := do
  let parsed ← mapExcept parseChunkE payloads
  match parsed with
  | [] => .error .emptyInput
  | first :: _ =>
      if parsed.length ≠ first.total then
        .error (.incomplete parsed.length first.total)
      else
        .ok ((sortChunks parsed).map ChunkInfo.payload)

/-- Strip a chunk header: `p.substring(p.indexOf(':', 5) + 1)`. -/
def stripHeader (pl : List Char) : List Char :=
  let rest := pl.drop 5
  match rest.dropWhile (· ≠ ':') with
  | [] => pl
  | _ :: tail => tail

/-- Expansion of decoded minimal records into fresh credentials
(`id: Date.now() + index`, fresh timestamps). -/
def expandAll (now : Nat) : Nat → List MinCred → List PlainCred
  | _, [] => []
  | i, m :: ms =>
      { id := now + i
        title := m.t
        username := m.u
        password := m.p
        category := m.c
        notes := m.n
        createdAt := now
        updatedAt := now } :: expandAll now (i + 1) ms

/-- `decodeFromQR(payloads, transferPassword)`. -/
def decodeFromQR
    (jsonP : List Char → Option (List MinCred))
    (kdf : KDFParams → List Char → List Nat → List Nat)
    (aesDec : List Nat → List Nat → List Nat → Option (List Nat))
    (utf8Dec : List Nat → List Char)
    (payloads : List (List Char)) (pw : List Char) (now : Nat) :
    Except TransferError (List PlainCred) := do
  let sorted ← sortAndValidateChunks payloads
  let base64Data := (sorted.map stripHeader).flatten
  let encryptedData ← match base64Decode base64Data with
    | some bytes => Except.ok bytes
    | none => Except.error .badBase64
  let jsonData ← match decryptTransferData kdf aesDec utf8Dec encryptedData pw with
    | some s => Except.ok s
    | none => Except.error .authError
  let transferData ← match jsonP jsonData with
    | some l => Except.ok l
    | none => Except.error .parseError
  return expandAll now 0 transferData

/-! ### Header parsing and stripping lemmas -/

theorem takeWhile_append_eq {α} (p : α → Bool) {l₁ : List α}
    (h : ∀ x ∈ l₁, p x = true) {a : α} (ha : p a = false) (l₂ : List α) :
    (l₁ ++ a :: l₂).takeWhile p = l₁ := by
  induction l₁ with
  | nil => simp [List.takeWhile_cons, ha]
  | cons x xs ih =>
      have hx : p x = true := h x (by simp)
      simp only [List.cons_append, List.takeWhile_cons, hx]
      simp [ih (fun y hy => h y (by simp [hy]))]

theorem dropWhile_append_eq {α} (p : α → Bool) {l₁ : List α}
    (h : ∀ x ∈ l₁, p x = true) {a : α} (ha : p a = false) (l₂ : List α) :
    (l₁ ++ a :: l₂).dropWhile p = a :: l₂ := by
  induction l₁ with
  | nil => simp [List.dropWhile_cons, ha]
  | cons x xs ih =>
      have hx : p x = true := h x (by simp)
      simp only [List.cons_append, List.dropWhile_cons, hx]
      simp [ih (fun y hy => h y (by simp [hy]))]

theorem parseChunkE_tagChunk (i total : Nat) (c : List Char) :
    parseChunkE (tagChunk i total c) = .ok ⟨i, total, tagChunk i total c⟩ := by
  have htake : (tagChunk i total c).take 5 = versionTag := rfl
  have hdrop : (tagChunk i total c).drop 5
      = natRepr i ++ '/' :: (natRepr total ++ ':' :: c) := rfl
  have hslash : ('/').isDigit = false := rfl
  have hcolon : (':').isDigit = false := rfl
  have htw1 := takeWhile_append_eq Char.isDigit (natRepr_isDigit i) hslash
      (natRepr total ++ ':' :: c)
  have hdw1 := dropWhile_append_eq Char.isDigit (natRepr_isDigit i) hslash
      (natRepr total ++ ':' :: c)
  have htw2 := takeWhile_append_eq Char.isDigit (natRepr_isDigit total) hcolon c
  have hdw2 := dropWhile_append_eq Char.isDigit (natRepr_isDigit total) hcolon c
  simp only [parseChunkE, htake, hdrop, htw1, hdw1, htw2, hdw2, ne_eq,
    not_true_eq_false, if_false, natRepr_ne_nil, parseDigits_repr]

theorem stripHeader_tagChunk (i total : Nat) (c : List Char) :
    stripHeader (tagChunk i total c) = c := by
  have hdrop : (tagChunk i total c).drop 5
      = natRepr i ++ '/' :: (natRepr total ++ ':' :: c) := rfl
  have hne : ∀ x ∈ natRepr i ++ '/' :: natRepr total,
      (decide (x ≠ ':')) = true := by
    intro x hx
    simp only [decide_eq_true_eq, ne_eq]
    intro he
    subst he
    rcases List.mem_append.mp hx with h1 | h2
    · have := natRepr_isDigit i _ h1
      simp [Char.isDigit] at this
    · rcases List.mem_cons.mp h2 with h3 | h4
      · exact absurd h3 (by decide)
      · have := natRepr_isDigit total _ h4
        simp [Char.isDigit] at this
  have hcolon : (decide ((':' : Char) ≠ ':')) = false := by decide
  have harr : natRepr i ++ '/' :: (natRepr total ++ ':' :: c)
      = (natRepr i ++ '/' :: natRepr total) ++ ':' :: c := by
    simp
  have hdw := dropWhile_append_eq (fun x => decide (x ≠ ':')) hne hcolon c
  simp only [stripHeader, hdrop, harr, hdw]

/-! ### Tagging and canonical parse lemmas -/

/-- Parsed form of the canonically tagged chunk list. -/
def infoList (total : Nat) : Nat → List (List Char) → List ChunkInfo
  | _, [] => []
  | i, c :: cs => ⟨i, total, tagChunk i total c⟩ :: infoList total (i + 1) cs

theorem infoList_map_payload (total : Nat) :
    ∀ (i : Nat) (cs : List (List Char)),
      (infoList total i cs).map ChunkInfo.payload = tagAll total i cs := by
  intro i cs
  induction cs generalizing i with
  | nil => rfl
  | cons c cs ih => simp [infoList, tagAll, ih]

theorem mem_tagAll {total i : Nat} {cs : List (List Char)} {x : List Char}
    (hx : x ∈ tagAll total i cs) : ∃ j c, x = tagChunk j total c := by
  induction cs generalizing i with
  | nil => simp [tagAll] at hx
  | cons c cs ih =>
      simp only [tagAll, List.mem_cons] at hx
      rcases hx with h | h
      · exact ⟨i, c, h⟩
      · exact ih h

theorem mem_infoList_total {total i : Nat} {cs : List (List Char)} {x : ChunkInfo}
    (hx : x ∈ infoList total i cs) : x.total = total := by
  induction cs generalizing i with
  | nil => simp [infoList] at hx
  | cons c cs ih =>
      simp only [infoList, List.mem_cons] at hx
      rcases hx with h | h
      · subst h; rfl
      · exact ih h

theorem mem_infoList_index_ge {total i : Nat} {cs : List (List Char)} {x : ChunkInfo}
    (hx : x ∈ infoList total i cs) : i ≤ x.index := by
  induction cs generalizing i with
  | nil => simp [infoList] at hx
  | cons c cs ih =>
      simp only [infoList, List.mem_cons] at hx
      rcases hx with h | h
      · subst h; exact le_refl _
      · exact Nat.le_of_succ_le (ih h)

theorem infoList_pairwise_lt (total : Nat) :
    ∀ (i : Nat) (cs : List (List Char)),
      (infoList total i cs).Pairwise (fun a b => a.index < b.index) := by
  intro i cs
  induction cs generalizing i with
  | nil => exact List.Pairwise.nil
  | cons c cs ih =>
      refine List.Pairwise.cons ?_ (ih (i + 1))
      intro b hb
      exact Nat.lt_of_lt_of_le (Nat.lt_succ_self i) (mem_infoList_index_ge hb)

theorem tagAll_map_parse (total : Nat) :
    ∀ (i : Nat) (cs : List (List Char)),
      (tagAll total i cs).map
          (fun p => ((parseChunkE p).toOption).getD default) = infoList total i cs := by
  intro i cs
  induction cs generalizing i with
  | nil => rfl
  | cons c cs ih =>
      simp only [tagAll, List.map_cons, infoList, parseChunkE_tagChunk, ih]
      rfl

theorem tagAll_length (total : Nat) :
    ∀ (i : Nat) (cs : List (List Char)), (tagAll total i cs).length = cs.length := by
  intro i cs
  induction cs generalizing i with
  | nil => rfl
  | cons c cs ih => simp [tagAll, ih]

/-! ### Sorting lemmas -/

theorem insertChunk_perm (a : ChunkInfo) (l : List ChunkInfo) :
    List.Perm (insertChunk a l) (a :: l) := by
  induction l with
  | nil => exact List.Perm.refl _
  | cons b bs ih =>
      rw [insertChunk]
      split
      · exact List.Perm.refl _
      · exact List.Perm.trans (List.Perm.cons b ih) (List.Perm.swap a b bs)

theorem sortChunks_perm (l : List ChunkInfo) : List.Perm (sortChunks l) l := by
  induction l with
  | nil => exact List.Perm.refl _
  | cons a as ih =>
      rw [sortChunks]
      exact List.Perm.trans (insertChunk_perm a _) (List.Perm.cons a ih)

theorem insertChunk_pairwise {a : ChunkInfo} {l : List ChunkInfo}
    (h : l.Pairwise (fun x y => x.index ≤ y.index)) :
    (insertChunk a l).Pairwise (fun x y => x.index ≤ y.index) := by
  induction l with
  | nil => simp [insertChunk]
  | cons b bs ih =>
      rw [insertChunk]
      rcases List.pairwise_cons.mp h with ⟨hb, hbs⟩
      split
      · refine List.pairwise_cons.mpr ⟨?_, h⟩
        intro y hy
        rcases List.mem_cons.mp hy with h1 | h2
        · subst h1; omega
        · exact le_trans (by omega) (hb y h2)
      · refine List.pairwise_cons.mpr ⟨?_, ih hbs⟩
        intro y hy
        have := (insertChunk_perm a bs).mem_iff.mp hy
        rcases List.mem_cons.mp this with h1 | h2
        · subst h1; omega
        · exact hb y h2

theorem sortChunks_pairwise (l : List ChunkInfo) :
    (sortChunks l).Pairwise (fun x y => x.index ≤ y.index) := by
  induction l with
  | nil => exact List.Pairwise.nil
  | cons a as ih => exact insertChunk_pairwise ih

/-- Two permutations of one list of chunks that are both strictly
sorted by index are equal. -/
theorem eq_of_perm_of_pairwise_lt :
    ∀ {l₁ l₂ : List ChunkInfo}, List.Perm l₁ l₂ →
      l₁.Pairwise (fun x y => x.index < y.index) →
      l₂.Pairwise (fun x y => x.index < y.index) → l₁ = l₂
  | [], l₂, hp, _, _ => by
      rw [hp.nil_eq]
  | a :: as, l₂, hp, h₁, h₂ => by
      match l₂ with
      | [] => exact absurd hp.symm.nil_eq (by simp)
      | b :: bs =>
          rcases List.pairwise_cons.mp h₁ with ⟨ha, has⟩
          rcases List.pairwise_cons.mp h₂ with ⟨hb, hbs⟩
          have hab : a = b := by
            have hmem : a ∈ b :: bs := hp.mem_iff.mp (by simp)
            rcases List.mem_cons.mp hmem with h | h
            · exact h
            · have hmem' : b ∈ a :: as := hp.mem_iff.mpr (by simp)
              rcases List.mem_cons.mp hmem' with h' | h'
              · exact h'.symm
              · have h1 := hb a h
                have h2 := ha b h'
                omega
          subst hab
          have : as = bs :=
            eq_of_perm_of_pairwise_lt hp.cons_inv has hbs
          rw [this]

theorem pairwise_lt_of_le_nodup {l : List ChunkInfo}
    (hle : l.Pairwise (fun x y => x.index ≤ y.index))
    (hnd : (l.map ChunkInfo.index).Nodup) :
    l.Pairwise (fun x y => x.index < y.index) := by
  induction l with
  | nil => exact List.Pairwise.nil
  | cons a as ih =>
      rcases List.pairwise_cons.mp hle with ⟨ha, has⟩
      rw [List.map_cons, List.nodup_cons] at hnd
      refine List.pairwise_cons.mpr ⟨?_, ih has hnd.2⟩
      intro y hy
      have h1 := ha y hy
      have h2 : a.index ≠ y.index := by
        intro he
        exact hnd.1 (he ▸ List.mem_map_of_mem ChunkInfo.index hy)
      omega

theorem infoList_index_nodup (total : Nat) :
    ∀ (i : Nat) (cs : List (List Char)),
      ((infoList total i cs).map ChunkInfo.index).Nodup := by
  intro i cs
  induction cs generalizing i with
  | nil => simp [infoList]
  | cons c cs ih =>
      simp only [infoList, List.map_cons, List.nodup_cons]
      refine ⟨?_, ih (i + 1)⟩
      intro hmem
      rcases List.mem_map.mp hmem with ⟨x, hx, hxi⟩
      have := mem_infoList_index_ge hx
      omega

/-! ### mapExcept lemmas -/

theorem exceptBind_ok {β ε γ : Type} (b : β) (g : β → Except ε γ) :
    (Except.ok b >>= g) = g b := rfl

theorem exceptBind_error {β ε γ : Type} (e : ε) (g : β → Except ε γ) :
    ((Except.error e : Except ε β) >>= g) = Except.error e := rfl

theorem mapExcept_ok_of_forall {α β ε : Type} (f : α → Except ε β) (g : α → β) :
    ∀ {l : List α}, (∀ a ∈ l, f a = .ok (g a)) → mapExcept f l = .ok (l.map g)
  | [], _ => rfl
  | a :: as, h => by
      have ha : f a = .ok (g a) := h a (List.mem_cons_self a as)
      have ih := mapExcept_ok_of_forall f g
        (fun x hx => h x (List.mem_cons_of_mem a hx))
      rw [mapExcept, ha, exceptBind_ok, ih, exceptBind_ok, List.map_cons]

theorem mapExcept_error_of_mem {α β ε : Type} (f : α → Except ε β) :
    ∀ {l : List α} {a : α} {e : ε}, a ∈ l → f a = .error e →
      ∃ e', mapExcept f l = .error e'
  | [], a, e, ha, _ => absurd ha (by simp)
  | x :: xs, a, e, ha, he => by
      rcases List.mem_cons.mp ha with h | h
      · subst h
        exact ⟨e, by rw [mapExcept, he, exceptBind_error]⟩
      · match hfx : f x with
        | .error e₀ => exact ⟨e₀, by rw [mapExcept, hfx, exceptBind_error]⟩
        | .ok b =>
            rcases mapExcept_error_of_mem f h he with ⟨e', he'⟩
            exact ⟨e', by rw [mapExcept, hfx, exceptBind_ok, he', exceptBind_error]⟩

/-- Total variant of chunk parsing (the value `mapExcept` computes when
nothing throws). -/
def parseForce (pl : List Char) : ChunkInfo :=
  ((parseChunkE pl).toOption).getD default

theorem parseForce_tagChunk (i total : Nat) (c : List Char) :
    parseForce (tagChunk i total c) = ⟨i, total, tagChunk i total c⟩ := by
  rw [parseForce, parseChunkE_tagChunk]
  rfl

theorem tagAll_map_parseForce (total : Nat) :
    ∀ (i : Nat) (cs : List (List Char)),
      (tagAll total i cs).map parseForce = infoList total i cs := by
  intro i cs
  induction cs generalizing i with
  | nil => rfl
  | cons c cs ih =>
      simp only [tagAll, List.map_cons, infoList, parseForce_tagChunk, ih]

theorem tagAll_map_stripHeader (total : Nat) :
    ∀ (i : Nat) (cs : List (List Char)),
      (tagAll total i cs).map stripHeader = cs := by
  intro i cs
  induction cs generalizing i with
  | nil => rfl
  | cons c cs ih =>
      simp only [tagAll, List.map_cons, stripHeader_tagChunk, ih]

/-- A complete chunk set presented in any permuted order passes
validation and comes back in canonical index order. -/
theorem sortAndValidateChunks_perm {cs : List (List Char)}
    (hne : cs ≠ []) {payloads : List (List Char)}
    (hperm : List.Perm payloads (tagAll cs.length 1 cs)) :
    sortAndValidateChunks payloads = .ok (tagAll cs.length 1 cs) := by
  have hparse : ∀ p ∈ payloads, parseChunkE p = .ok (parseForce p) := by
    intro p hp
    rcases mem_tagAll (hperm.mem_iff.mp hp) with ⟨j, c, hj⟩
    subst hj
    rw [parseChunkE_tagChunk, parseForce_tagChunk]
  have hmap := mapExcept_ok_of_forall parseChunkE parseForce hparse
  have hpermParsed : List.Perm (payloads.map parseForce) (infoList cs.length 1 cs) := by
    rw [← tagAll_map_parseForce cs.length 1 cs]
    exact hperm.map parseForce
  have hlen : (payloads.map parseForce).length = cs.length := by
    rw [List.length_map]
    rw [hperm.length_eq, tagAll_length]
  have hlenpos : 0 < cs.length := List.length_pos.mpr hne
  rw [sortAndValidateChunks, hmap, exceptBind_ok]
  match hl : payloads.map parseForce with
  | [] =>
      rw [hl] at hlen
      simp at hlen
      omega
  | first :: rest =>
      have hfirstmem : first ∈ infoList cs.length 1 cs := by
        have : first ∈ payloads.map parseForce := by rw [hl]; simp
        exact hpermParsed.mem_iff.mp this
      have htot : first.total = cs.length := mem_infoList_total hfirstmem
      rw [hl] at hlen hpermParsed
      simp only [htot, hlen, ne_eq, not_true_eq_false, if_false]
      have hsortPerm : List.Perm (sortChunks (first :: rest)) (infoList cs.length 1 cs) :=
        List.Perm.trans (sortChunks_perm _) hpermParsed
      have hnd : ((sortChunks (first :: rest)).map ChunkInfo.index).Nodup := by
        have hmapPerm := hsortPerm.map ChunkInfo.index
        exact hmapPerm.nodup_iff.mpr (infoList_index_nodup cs.length 1 cs)
      have hsorted := pairwise_lt_of_le_nodup (sortChunks_pairwise (first :: rest)) hnd
      have heq : sortChunks (first :: rest) = infoList cs.length 1 cs :=
        eq_of_perm_of_pairwise_lt hsortPerm hsorted (infoList_pairwise_lt cs.length 1 cs)
      rw [heq, infoList_map_payload]

/-- The five fields the transfer carries. -/
def transferFields (r : PlainCred) :
    List Char × List Char × List Char × List Char × List Char :=
  (r.title, r.username, r.password, r.category, r.notes)

theorem expandAll_map_transferFields (now : Nat) (creds : List PlainCred) :
    ∀ i, (expandAll now i (creds.map minify)).map transferFields
      = creds.map transferFields := by
  induction creds with
  | nil => intro i; rfl
  | cons c cs ih =>
      intro i
      simp only [List.map_cons, expandAll, ih (i + 1)]
      simp [transferFields, minify, orEmpty_eq]

theorem expandAll_length (now : Nat) :
    ∀ (i : Nat) (ms : List MinCred), (expandAll now i ms).length = ms.length := by
  intro i ms
  induction ms generalizing i with
  | nil => rfl
  | cons m ms ih => simp [expandAll, ih]

/-- C3 transfer round trip, fully assembled. -/
theorem decodeFromQR_encodeForQR
    (jsonS : List MinCred → List Char) (jsonP : List Char → Option (List MinCred))
    (kdf : KDFParams → List Char → List Nat → List Nat)
    (aesEnc : List Nat → List Nat → List Nat → List Nat)
    (aesDec : List Nat → List Nat → List Nat → Option (List Nat))
    (utf8 : List Char → List Nat) (utf8Dec : List Nat → List Char)
    (salt iv : List Nat) (creds : List PlainCred) (pw : List Char)
    (payloads : List (List Char)) (now : Nat)
    (hjson : jsonP (jsonS (creds.map minify)) = some (creds.map minify))
    (haes : aesDec (kdf transferKDFParams pw salt) iv
        (aesEnc (kdf transferKDFParams pw salt) iv (utf8 (jsonS (creds.map minify))))
        = some (utf8 (jsonS (creds.map minify))))
    (hutf8 : utf8Dec (utf8 (jsonS (creds.map minify))) = jsonS (creds.map minify))
    (hsaltLen : salt.length = 16) (hivLen : iv.length = 12)
    (hsaltB : ∀ b ∈ salt, b < 256) (hivB : ∀ b ∈ iv, b < 256)
    (haesB : ∀ b ∈ aesEnc (kdf transferKDFParams pw salt) iv
        (utf8 (jsonS (creds.map minify))), b < 256)
    (hperm : List.Perm payloads (encodeForQR jsonS kdf aesEnc utf8 salt iv creds pw)) :
    decodeFromQR jsonP kdf aesDec utf8Dec payloads pw now
      = .ok (expandAll now 0 (creds.map minify)) := by
  have hsaltne : salt ≠ [] := by
    intro h
    rw [h] at hsaltLen
    simp at hsaltLen
  set jsonData := jsonS (creds.map minify) with hjd
  set key := kdf transferKDFParams pw salt with hkey
  set ct := aesEnc key iv (utf8 jsonData) with hct
  have hbytes : encryptTransferData kdf aesEnc utf8 salt iv jsonData pw
      = salt ++ iv ++ ct := rfl
  set bytes := salt ++ iv ++ ct with hb
  have hbytesne : bytes ≠ [] := by
    rw [hb]
    simp [hsaltne]
  have hbytesB : ∀ b ∈ bytes, b < 256 := by
    intro b hbmem
    rw [hb, List.append_assoc] at hbmem
    rcases List.mem_append.mp hbmem with h | h
    · exact hsaltB b h
    · rcases List.mem_append.mp h with h' | h'
      · exact hivB b h'
      · exact haesB b h'
  set chunks := splitIntoChunks (base64Encode bytes) with hch
  have hchne : chunks ≠ [] :=
    splitIntoChunks_ne_nil (base64Encode_ne_nil hbytesne)
  have hencode : encodeForQR jsonS kdf aesEnc utf8 salt iv creds pw
      = tagAll chunks.length 1 chunks := rfl
  rw [hencode] at hperm
  have hsorted := sortAndValidateChunks_perm hchne hperm
  rw [decodeFromQR, hsorted, exceptBind_ok]
  rw [tagAll_map_stripHeader, hch, splitIntoChunks_flatten]
  have hb64 := base64_roundTrip bytes hbytesB
  have hdec : decryptTransferData kdf aesDec utf8Dec bytes pw = some jsonData := by
    rw [decryptTransferData]
    have h1 : bytes.take 16 = salt := by
      rw [hb, List.append_assoc, List.take_left' hsaltLen]
    have h2 : bytes.drop 16 = iv ++ ct := by
      rw [hb, List.append_assoc, List.drop_left' hsaltLen]
    have h3 : (bytes.drop 16).take 12 = iv := by
      rw [h2, List.take_left' hivLen]
    have h4 : bytes.drop 28 = ct := by
      have : bytes.drop 28 = (bytes.drop 16).drop 12 := by
        rw [List.drop_drop]
      rw [this, h2, List.drop_left' hivLen]
    rw [h1, h3, h4, haes, Option.map_some', hutf8]
  simp only [hb64, hdec, exceptBind_ok, hjson]
  rfl

/-- C3: Transfer round-trip.  For every list of credentials and every
transfer password, decoding the chunk sequence produced by
`encodeForQR` — presented in any permuted order — with the same
transfer password succeeds and yields records whose title, username,
password, category and notes equal the originals, whenever the
platform JSON / UTF-8 / AES-GCM primitives satisfy their round-trip
contracts on this payload and produce byte-valued output, and the
salt and IV are the 16- and 12-byte random values the source
generates. -/
theorem C3_transfer_roundTrip
    (jsonS : List MinCred → List Char) (jsonP : List Char → Option (List MinCred))
    (kdf : KDFParams → List Char → List Nat → List Nat)
    (aesEnc : List Nat → List Nat → List Nat → List Nat)
    (aesDec : List Nat → List Nat → List Nat → Option (List Nat))
    (utf8 : List Char → List Nat) (utf8Dec : List Nat → List Char)
    (salt iv : List Nat) (creds : List PlainCred) (pw : List Char)
    (payloads : List (List Char)) (now : Nat)
    (hjson : jsonP (jsonS (creds.map minify)) = some (creds.map minify))
    (haes : aesDec (kdf transferKDFParams pw salt) iv
        (aesEnc (kdf transferKDFParams pw salt) iv (utf8 (jsonS (creds.map minify))))
        = some (utf8 (jsonS (creds.map minify))))
    (hutf8 : utf8Dec (utf8 (jsonS (creds.map minify))) = jsonS (creds.map minify))
    (hsaltLen : salt.length = 16) (hivLen : iv.length = 12)
    (hsaltB : ∀ b ∈ salt, b < 256) (hivB : ∀ b ∈ iv, b < 256)
    (haesB : ∀ b ∈ aesEnc (kdf transferKDFParams pw salt) iv
        (utf8 (jsonS (creds.map minify))), b < 256)
    (hperm : List.Perm payloads (encodeForQR jsonS kdf aesEnc utf8 salt iv creds pw)) :
    ∃ out, decodeFromQR jsonP kdf aesDec utf8Dec payloads pw now = .ok out
      ∧ out.length = creds.length
      ∧ out.map transferFields = creds.map transferFields := by
  refine ⟨expandAll now 0 (creds.map minify),
    decodeFromQR_encodeForQR jsonS jsonP kdf aesEnc aesDec utf8 utf8Dec salt iv creds
      pw payloads now hjson haes hutf8 hsaltLen hivLen hsaltB hivB haesB hperm,
    ?_, expandAll_map_transferFields now creds 0⟩
  rw [expandAll_length, List.length_map]

/-! Concrete instantiation material shared by the transfer witnesses
and counterexamples. -/

def demoCred : PlainCred :=
  { id := 1
    title := ['M', 'a', 'i', 'l']
    username := ['a', 'n', 'a']
    password := ['p', 'w', '1']
    category := ['e', 'm']
    notes := []
    createdAt := 0
    updatedAt := 0 }

def demoJsonS : List MinCred → List Char := fun _ => ['j']

def demoJsonP : List Char → Option (List MinCred) :=
  fun _ => some ([demoCred].map minify)

def demoKdf : KDFParams → List Char → List Nat → List Nat := fun _ _ _ => []

def demoAesEnc : List Nat → List Nat → List Nat → List Nat := fun _ _ _ => [9]

def demoAesDec : List Nat → List Nat → List Nat → Option (List Nat) :=
  fun _ _ _ => some [106]

def demoUtf8 : List Char → List Nat := fun _ => [106]

def demoUtf8Dec : List Nat → List Char := fun _ => ['j']

def demoSalt : List Nat := List.replicate 16 0

def demoIv : List Nat := List.replicate 12 0

/-- Witness for C3 at a concrete credential list, with the chunk list
presented in reversed order. -/
theorem C3_transfer_roundTrip_witness :
    ∃ out, decodeFromQR demoJsonP demoKdf demoAesDec demoUtf8Dec
        (encodeForQR demoJsonS demoKdf demoAesEnc demoUtf8 demoSalt demoIv
          [demoCred] ['x']).reverse ['x'] 7 = .ok out
      ∧ out.length = [demoCred].length
      ∧ out.map transferFields = [demoCred].map transferFields :=
  C3_transfer_roundTrip demoJsonS demoJsonP demoKdf demoAesEnc demoAesDec
    demoUtf8 demoUtf8Dec demoSalt demoIv [demoCred] ['x'] _ 7
    rfl rfl rfl (by decide) (by decide) (by decide) (by decide) (by decide)
    (List.reverse_perm _)

/-! ### C4: what `sortAndValidateChunks` actually validates -/

theorem mapExcept_ok_length {α β ε : Type} (f : α → Except ε β) :
    ∀ {l : List α} {bs : List β}, mapExcept f l = .ok bs → bs.length = l.length
  | [], bs, h => by
      rw [mapExcept] at h
      cases h
      rfl
  | a :: as, bs, h => by
      rw [mapExcept] at h
      match hfa : f a with
      | .error e => rw [hfa, exceptBind_error] at h; cases h
      | .ok b =>
          rw [hfa, exceptBind_ok] at h
          match hrest : mapExcept f as with
          | .error e => rw [hrest, exceptBind_error] at h; cases h
          | .ok bs' =>
              rw [hrest, exceptBind_ok] at h
              cases h
              have := mapExcept_ok_length f hrest
              simp [this]

/-- A chunk string duplicated so that the count still equals the
declared total (`2` of `2`, both copies being chunk `1/2`). -/
def dupChunk : List Char := ['L', '2', 'V', '1', ':', '1', '/', '2', ':', 'A', 'B']

def dupPayloads : List (List Char) := [dupChunk, dupChunk]

/-- C4 counterexample: a duplicated chunk set whose count equals the
declared total is NOT rejected — `decodeFromQR` returns records
instead of failing with `IncompleteTransferError`. -/
theorem C4_counterexample :
    dupPayloads = [dupChunk, dupChunk] ∧
    decodeFromQR demoJsonP demoKdf demoAesDec demoUtf8Dec dupPayloads ['x'] 0
      = .ok (expandAll 0 0 ([demoCred].map minify)) :=
  ⟨rfl, rfl⟩

/-- C4 as amended: validation rejects a chunk set exactly when some
chunk fails the format/header parse or the chunk count differs from
the total declared by the FIRST chunk (that mismatch raising
`IncompleteTransferError`); it never deduplicates and never compares
totals across chunks, so any parseable set whose count equals the
first chunk's declared total is accepted. -/
theorem C4_sortAndValidate_characterisation :
    (∀ (payloads : List (List Char)) (pl : List Char), pl ∈ payloads →
        pl.take 5 ≠ versionTag →
        ∃ e, sortAndValidateChunks payloads = .error e) ∧
    (∀ (payloads : List (List Char)) (first : ChunkInfo) (rest : List ChunkInfo),
        mapExcept parseChunkE payloads = .ok (first :: rest) →
        payloads.length ≠ first.total →
        sortAndValidateChunks payloads
          = .error (.incomplete payloads.length first.total)) ∧
    (∀ (payloads : List (List Char)) (first : ChunkInfo) (rest : List ChunkInfo),
        mapExcept parseChunkE payloads = .ok (first :: rest) →
        payloads.length = first.total →
        sortAndValidateChunks payloads
          = .ok ((sortChunks (first :: rest)).map ChunkInfo.payload)) := by
  refine ⟨?_, ?_, ?_⟩
  · intro payloads pl hmem htag
    have hp : parseChunkE pl = .error .invalidFormat := by
      rw [parseChunkE, if_pos htag]
    rcases mapExcept_error_of_mem parseChunkE hmem hp with ⟨e', he'⟩
    exact ⟨e', by rw [sortAndValidateChunks, he', exceptBind_error]⟩
  · intro payloads first rest hparse hne
    have hlen : (first :: rest).length = payloads.length :=
      mapExcept_ok_length parseChunkE hparse
    rw [sortAndValidateChunks, hparse, exceptBind_ok]
    simp only [hlen, hne, ne_eq, not_false_eq_true, if_true]
  · intro payloads first rest hparse heq
    have hlen : (first :: rest).length = payloads.length :=
      mapExcept_ok_length parseChunkE hparse
    rw [sortAndValidateChunks, hparse, exceptBind_ok]
    simp only [hlen, heq, ne_eq, not_true_eq_false, if_false]

/-- Witness for the amended C4 at concrete inputs: a malformed tag is
rejected, one chunk declaring total `3` raises the incomplete error
with counts `(1, 3)`, and the duplicated pair passes validation. -/
theorem C4_sortAndValidate_characterisation_witness :
    (∃ e, sortAndValidateChunks [['X']] = .error e) ∧
    sortAndValidateChunks [['L', '2', 'V', '1', ':', '1', '/', '3', ':', 'A']]
      = .error (.incomplete 1 3) ∧
    sortAndValidateChunks dupPayloads
      = .ok [dupChunk, dupChunk] :=
  ⟨C4_sortAndValidate_characterisation.1 [['X']] ['X'] (by decide) (by decide),
   by
    have h := C4_sortAndValidate_characterisation.2.1
      [['L', '2', 'V', '1', ':', '1', '/', '3', ':', 'A']] ⟨1, 3,
        ['L', '2', 'V', '1', ':', '1', '/', '3', ':', 'A']⟩ [] rfl (by decide)
    exact h,
   by
    have h := C4_sortAndValidate_characterisation.2.2 dupPayloads
      ⟨1, 2, dupChunk⟩ [⟨1, 2, dupChunk⟩] rfl (by decide)
    exact h⟩

/-! ### C5: the key derivation the transfer codec actually uses -/

/-- C5 counterexample: the transfer key is NOT derived via Argon2id —
`encryptTransferData` hard-codes PBKDF2. -/
theorem C5_counterexample : transferKDFParams.alg ≠ KDFAlg.argon2id := by decide

/-- C5 as amended: the one-time transfer key is derived via PBKDF2
over SHA-256 with 100000 iterations (no memory or parallelism
parameter — PBKDF2 is not memory-hard), producing a 256-bit AES-GCM
key from a fresh 16-byte salt, and `encryptTransferData` invokes
exactly this configuration and prepends the salt and IV to the
ciphertext. -/
theorem C5_transfer_kdf_pbkdf2 :
    (transferKDFParams.alg = KDFAlg.pbkdf2
      ∧ transferKDFParams.hash = some KDFHash.sha256
      ∧ transferKDFParams.iterations = some 100000
      ∧ transferKDFParams.memoryKiB = none
      ∧ transferKDFParams.parallelism = none
      ∧ transferKDFParams.keyBits = 256
      ∧ transferKDFParams.saltBytes = 16) ∧
    (∀ (kdf : KDFParams → List Char → List Nat → List Nat)
        (aesEnc : List Nat → List Nat → List Nat → List Nat)
        (utf8 : List Char → List Nat) (salt iv : List Nat)
        (data pw : List Char),
      encryptTransferData kdf aesEnc utf8 salt iv data pw
        = salt ++ iv ++ aesEnc (kdf transferKDFParams pw salt) iv (utf8 data)) :=
  ⟨⟨rfl, rfl, rfl, rfl, rfl, rfl, rfl⟩, fun _ _ _ _ _ _ _ => rfl⟩

/-! ## C1: master-password rotation (handleChangePassword in app.js)

The AES-GCM layer is modelled as an ideal cipher: a sealed blob
remembers its plaintext and the key it was sealed under, decryption
succeeds exactly under the sealing key.  The injectable `dec`/`enc`
parameters let a theorem simulate a re-encryption failure on a chosen
record, as the spec's test sentence requires.  The persisted record
store (`updateCredential` from storage/db.js, not part of src/) is
modelled from the spec as update-by-id. -/

/-- Ideal-cipher view of an `{encryptedPassword, iv}` pair: the body
it decrypts to and the key it was produced under. -/
structure SealedBlob where
  body : List Char
  keyTag : Nat
  deriving DecidableEq, Repr

/-- Ideal AES-GCM decryption: succeeds exactly under the sealing key
(`AuthenticationError` otherwise). -/
def idealDecrypt (key : Nat) (b : SealedBlob) : Except Unit (List Char) :=
  if b.keyTag = key then .ok b.body else .error ()

/-- Ideal AES-GCM encryption. -/
def idealEncrypt (key : Nat) (pw : List Char) : Except Unit SealedBlob :=
  .ok ⟨pw, key⟩

/-- Credential at rest. -/
structure StoredCred where
  id : Nat
  title : List Char
  encryptedPassword : SealedBlob
  deriving DecidableEq, Repr

/-- Modelled from the spec: the persisted record store collaborator
(storage/db.js is not under src/) supports update-by-id. -/
def updateCredential (store : List StoredCred) (c : StoredCred) : List StoredCred :=
  store.map fun x => if x.id = c.id then c else x

/-- Persisted vault state: credential records plus the stored
master-password verifier. -/
structure VaultState where
  creds : List StoredCred
  verifierHash : List Char
  verifierSalt : List Char
  deriving DecidableEq, Repr

/-- The re-encryption loop of `handleChangePassword`: decrypt each
credential under the old key, re-encrypt under the new key and
persist it immediately via `updateCredential`.  A thrown error stops
the loop; everything already persisted stays persisted (the JS `catch`
only shows a toast). -/
def rotateLoop (dec : Nat → SealedBlob → Except Unit (List Char))
    (enc : Nat → List Char → Except Unit SealedBlob)
    (oldKey newKey : Nat) :
    List StoredCred → List StoredCred → List StoredCred × Bool
  | store, [] => (store, true)
  | store, c :: cs =>
      match dec oldKey c.encryptedPassword with
      | .error _ => (store, false)
      | .ok pw =>
          match enc newKey pw with
          | .error _ => (store, false)
          | .ok blob =>
              rotateLoop dec enc oldKey newKey
                (updateCredential store { c with encryptedPassword := blob }) cs

/-- `handleChangePassword` after the password prompts and the
current-password verification have succeeded: run the re-encryption
loop over the in-memory credential list, and only if every record
succeeded, store the new verifier. -/
def handleChangePassword (dec : Nat → SealedBlob → Except Unit (List Char))
    (enc : Nat → List Char → Except Unit SealedBlob)
    (oldKey newKey : Nat) (newHash newSalt : List Char)
    (st : VaultState) : VaultState :=
  match rotateLoop dec enc oldKey newKey st.creds st.creds with
  | (store, true) => { creds := store, verifierHash := newHash, verifierSalt := newSalt }
  | (store, false) => { st with creds := store }

/-- Failure injection for the C1 scenario: encryption that throws on
the second record's password. -/
def c1FailingEnc : Nat → List Char → Except Unit SealedBlob :=
  fun key pw => if pw = ['p', '2'] then .error () else idealEncrypt key pw

def c1State : VaultState :=
  { creds := [⟨1, ['a'], ⟨['p', '1'], 0⟩⟩, ⟨2, ['b'], ⟨['p', '2'], 0⟩⟩]
    verifierHash := ['o', 'l', 'd']
    verifierSalt := ['s'] }

/-- C1 failing run: with 2 credentials sealed under key 0, a
re-encryption failure on record 2 of 2 leaves record 1 PERSISTED under
the new key 1 — no longer decryptable under the original key — while
the stored verifier still belongs to the original password.  The
rotation is not atomic and there is no rollback. -/
theorem C1_rotation_not_atomic :
    (handleChangePassword idealDecrypt c1FailingEnc 0 1 ['n'] ['t'] c1State).creds.map
        (fun c => c.encryptedPassword.keyTag) = [1, 0]
    ∧ (handleChangePassword idealDecrypt c1FailingEnc 0 1 ['n'] ['t'] c1State).verifierHash
        = ['o', 'l', 'd']
    ∧ ((handleChangePassword idealDecrypt c1FailingEnc 0 1 ['n'] ['t']
        c1State).creds.map fun c => idealDecrypt 0 c.encryptedPassword)
        = [.error (), .ok ['p', '2']] :=
  ⟨rfl, rfl, rfl⟩

/-! ## C2: duress pre-wipe backup packaging (duress-mode.js) -/

/-- The object serialized into the backup
(`{version, timestamp, credentials, device}`). -/
structure BackupObj where
  version : Nat
  timestamp : Nat
  credentials : List PlainCred
  device : List Char
  deriving DecidableEq, Repr

/-- Return value of `createEncryptedBackup`. -/
structure BackupFile where
  data : List Char
  checksum : List Char
  encrypted : Bool
  deriving DecidableEq, Repr

/-- `generateChecksum(data)`: hex SHA-256 of the UTF-8 bytes,
truncated to 16 characters.  `sha256` models `crypto.subtle.digest`. -/
def generateChecksum (sha256 : List Nat → List Nat) (jsonBytes : List Nat) : List Char :=
  (bytesToHex (sha256 jsonBytes)).take 16

/-- `createEncryptedBackup(credentials, encryptionKey)`: serialize the
backup object and — despite the name, the `encrypted: true` flag and
the key argument — only base64-encode the serialized plaintext.
`stringify` models `JSON.stringify` composed with `TextEncoder`. -/
def createEncryptedBackup (stringify : BackupObj → List Nat)
    (sha256 : List Nat → List Nat)
    (creds : List PlainCred) (ts : Nat) (device : List Char)
    (_encryptionKey : Nat) : BackupFile :=
  let jsonBytes := stringify ⟨1, ts, creds, device⟩
  { data := base64Encode jsonBytes
    checksum := generateChecksum sha256 jsonBytes
    encrypted := true }

/-- C2 failing behaviour: the backup blob is independent of the
encryption key, and the serialized credential plaintext is recovered
from it by plain base64 decoding with no key at all; the checksum
field does match the truncated-hex-SHA-256-of-pre-checksum-JSON
description. -/
theorem C2_backup_is_base64_not_aead
    (stringify : BackupObj → List Nat) (sha256 : List Nat → List Nat)
    (creds : List PlainCred) (ts : Nat) (device : List Char) (k₁ k₂ : Nat)
    (hB : ∀ b ∈ stringify ⟨1, ts, creds, device⟩, b < 256) :
    createEncryptedBackup stringify sha256 creds ts device k₁
      = createEncryptedBackup stringify sha256 creds ts device k₂
    ∧ base64Decode (createEncryptedBackup stringify sha256 creds ts device k₁).data
      = some (stringify ⟨1, ts, creds, device⟩)
    ∧ (createEncryptedBackup stringify sha256 creds ts device k₁).checksum
      = (bytesToHex (sha256 (stringify ⟨1, ts, creds, device⟩))).take 16
    ∧ (createEncryptedBackup stringify sha256 creds ts device k₁).encrypted = true :=
  ⟨rfl, base64_roundTrip _ hB, rfl, rfl⟩

/-- Witness for C2 at a concrete credential list and serializer. -/
theorem C2_backup_is_base64_not_aead_witness :
    createEncryptedBackup (fun _ => [104, 105]) (fun _ => List.replicate 32 7)
        [demoCred] 3 ['d'] 0
      = createEncryptedBackup (fun _ => [104, 105]) (fun _ => List.replicate 32 7)
        [demoCred] 3 ['d'] 99
    ∧ base64Decode (createEncryptedBackup (fun _ => [104, 105])
        (fun _ => List.replicate 32 7) [demoCred] 3 ['d'] 0).data = some [104, 105]
    ∧ (createEncryptedBackup (fun _ => [104, 105]) (fun _ => List.replicate 32 7)
        [demoCred] 3 ['d'] 0).checksum
      = (bytesToHex ((fun _ => List.replicate 32 7) [104, 105])).take 16
    ∧ (createEncryptedBackup (fun _ => [104, 105]) (fun _ => List.replicate 32 7)
        [demoCred] 3 ['d'] 0).encrypted = true :=
  C2_backup_is_base64_not_aead (fun _ => [104, 105]) (fun _ => List.replicate 32 7)
    [demoCred] 3 ['d'] 0 99 (by decide)

/-! ## Browser storage model (localStorage / sessionStorage / IndexedDB)

Association-list semantics for the storage collaborators the duress
module drives. -/

def lsGet : List (List Char × List Char) → List Char → Option (List Char)
  | [], _ => none
  | (k', v) :: rest, k => if k' = k then some v else lsGet rest k

def lsSet : List (List Char × List Char) → List Char → List Char →
    List (List Char × List Char)
  | [], k, v => [(k, v)]
  | (k', v') :: rest, k, v =>
      if k' = k then (k, v) :: rest else (k', v') :: lsSet rest k v

def lsRemove (st : List (List Char × List Char)) (k : List Char) :
    List (List Char × List Char) :=
  st.filter fun p => !(p.1 = k : Bool)

/-- JS `localStorage.getItem(k) || dflt` (both `null` and the empty
string are falsy). -/
def lsGetOr (st : List (List Char × List Char)) (k dflt : List Char) : List Char :=
  match lsGet st k with
  | none => dflt
  | some v => if v = [] then dflt else v

theorem lsGet_lsSet : ∀ (st : List (List Char × List Char)) (k v : List Char),
    lsGet (lsSet st k v) k = some v
  | [], k, v => by simp [lsSet, lsGet]
  | (k', v') :: rest, k, v => by
      by_cases h : k' = k
      · simp [lsSet, if_pos h, lsGet]
      · simp only [lsSet, if_neg h, lsGet, if_neg h]
        exact lsGet_lsSet rest k v

theorem lsGet_lsRemove : ∀ (st : List (List Char × List Char)) (k : List Char),
    lsGet (lsRemove st k) k = none
  | [], _ => rfl
  | (k', v') :: rest, k => by
      by_cases h : k' = k
      · simp only [lsRemove, List.filter_cons]
        rw [if_neg (by simp [h])]
        exact lsGet_lsRemove rest k
      · simp only [lsRemove, List.filter_cons]
        rw [if_pos (by simp [h])]
        simp only [lsGet, if_neg h]
        exact lsGet_lsRemove rest k

/-- Full browser state touched by the duress module. -/
structure BrowserState where
  idb : List (List Char)
  ls : List (List Char × List Char)
  ss : List (List Char × List Char)
  deriving DecidableEq, Repr

def duressLogsKey : List Char := ['d', 'u', 'r', 'e', 's', 's', 'L', 'o', 'g', 's']

def l2vaultTag : List Char := ['l', '2', 'v', 'a', 'u', 'l', 't']

def jsonEmptyArr : List Char := ['[', ']']

/-- `wipeAllData()`: delete every IndexedDB database whose name starts
with `l2vault`, clear localStorage but restore the saved `duressLogs`
value when it is truthy, and clear sessionStorage. -/
def wipeAllData (st : BrowserState) : BrowserState :=
  let idb' := st.idb.filter fun n => !(n.take 7 = l2vaultTag : Bool)
  let savedLogs := lsGet st.ls duressLogsKey
  let ls' := match savedLogs with
    | none => []
    | some v => if v = [] then [] else [(duressLogsKey, v)]
  { idb := idb', ls := ls', ss := [] }

/-- One activation-log record. -/
structure LogEntry where
  timestamp : Nat
  location : Option (List Char)
  wiped : Bool
  backupSent : Bool
  deriving DecidableEq, Repr

/-- `getDuressLogs()`: `JSON.parse(localStorage.getItem('duressLogs') || '[]')`;
`parseLogs` models `JSON.parse` on a log array. -/
def getDuressLogs (parseLogs : List Char → List LogEntry) (st : BrowserState) :
    List LogEntry :=
  parseLogs (lsGetOr st.ls duressLogsKey jsonEmptyArr)

/-! ## C6: duress activation sequencing (executeDuressActions) -/

/-- Options object of `executeDuressActions`. -/
structure DuressOpts where
  wipeData : Bool := false
  sendBackup : Bool := false
  userEmail : Option (List Char) := none
  recoveryEmail : Option (List Char) := none
  deriving DecidableEq, Repr

structure DuressResult where
  success : Bool
  backupSent : Bool
  wiped : Bool
  deriving DecidableEq, Repr

/-- Observable phases of an activation, in execution order. -/
inductive DuressEvent where
  | backupFinished (sent : Bool)
  | wipeExecuted
  | logAppended
  deriving DecidableEq, Repr

/-- The try-block of the backup phase: deliver to the user email, then
to the recovery email; any throw is caught and leaves
`backupSent = false`.  `deliver` models `sendBackupEmail`. -/
def backupPhase (deliver : List Char → Except Unit Unit) (opts : DuressOpts) : Bool :=
  match opts.userEmail with
  | some e =>
      match deliver e with
      | .error _ => false
      | .ok _ =>
          match opts.recoveryEmail with
          | some e₂ =>
              match deliver e₂ with
              | .error _ => false
              | .ok _ => true
          | none => true
  | none =>
      match opts.recoveryEmail with
      | some e₂ =>
          match deliver e₂ with
          | .error _ => false
          | .ok _ => true
      | none => true

/-- `executeDuressActions(options, ...)`: send the encrypted backup
BEFORE wiping, wipe if requested, then append the activation-log
entry.  Returns the final browser state, the summary object and the
ordered event trace.  `now`/`geo` model `Date.now()` and the awaited
geolocation; `parseLogs`/`printLogs` model `JSON.parse`/`JSON.stringify`
on the log array. -/
def executeDuressActions (deliver : List Char → Except Unit Unit)
    (parseLogs : List Char → List LogEntry) (printLogs : List LogEntry → List Char)
    (opts : DuressOpts) (now : Nat) (geo : Option (List Char))
    (st : BrowserState) : BrowserState × DuressResult × List DuressEvent :=
  let backupAttempted :=
    opts.sendBackup && (opts.userEmail.isSome || opts.recoveryEmail.isSome)
  let backupSent := if backupAttempted then backupPhase deliver opts else false
  let trace₁ := if backupAttempted then [DuressEvent.backupFinished backupSent] else []
  let st₁ := if opts.wipeData then wipeAllData st else st
  let trace₂ := if opts.wipeData then [DuressEvent.wipeExecuted] else []
  let entry : LogEntry := ⟨now, geo, opts.wipeData, backupSent⟩
  let logs := parseLogs (lsGetOr st₁.ls duressLogsKey jsonEmptyArr)
  let st₂ := { st₁ with ls := lsSet st₁.ls duressLogsKey (printLogs (logs ++ [entry])) }
  (st₂, ⟨true, backupSent, opts.wipeData⟩,
    trace₁ ++ trace₂ ++ [DuressEvent.logAppended])

theorem lsGetOr_wipe (st : BrowserState) :
    lsGetOr (wipeAllData st).ls duressLogsKey jsonEmptyArr
      = lsGetOr st.ls duressLogsKey jsonEmptyArr := by
  rw [wipeAllData]
  match h : lsGet st.ls duressLogsKey with
  | none => simp [lsGetOr, h, lsGet]
  | some v =>
      by_cases hv : v = []
      · simp [lsGetOr, h, hv, lsGet]
      · simp [lsGetOr, h, hv, lsGet]

/-- C6: with wipe and backup both requested and a failing delivery
destination, the backup phase still completes (with its failure
caught) strictly before the wipe, the wipe still occurs, the run
reports `backupSent:false`, and the activation-log entry
`{timestamp, wiped:true, backupSent:false}` is appended to the
surviving log; moreover, for ANY delivery outcome the trace is
backup-then-wipe-then-log. -/
theorem C6_duress_ordering_and_audit
    (deliver : List Char → Except Unit Unit)
    (parseLogs : List Char → List LogEntry) (printLogs : List LogEntry → List Char)
    (d : List Char) (now : Nat) (geo : Option (List Char)) (st : BrowserState)
    (hdeliver : deliver d = .error ())
    (hroundtrip : parseLogs (printLogs (getDuressLogs parseLogs st
        ++ [⟨now, geo, true, false⟩]))
      = getDuressLogs parseLogs st ++ [⟨now, geo, true, false⟩])
    (hprintNe : printLogs (getDuressLogs parseLogs st ++ [⟨now, geo, true, false⟩]) ≠ []) :
    (executeDuressActions deliver parseLogs printLogs
        ⟨true, true, some d, none⟩ now geo st).2.2
      = [.backupFinished false, .wipeExecuted, .logAppended]
    ∧ (executeDuressActions deliver parseLogs printLogs
        ⟨true, true, some d, none⟩ now geo st).2.1 = ⟨true, false, true⟩
    ∧ getDuressLogs parseLogs (executeDuressActions deliver parseLogs printLogs
        ⟨true, true, some d, none⟩ now geo st).1
      = getDuressLogs parseLogs st ++ [⟨now, geo, true, false⟩]
    ∧ (∀ deliver' : List Char → Except Unit Unit, ∃ sent,
        (executeDuressActions deliver' parseLogs printLogs
          ⟨true, true, some d, none⟩ now geo st).2.2
        = [.backupFinished sent, .wipeExecuted, .logAppended]) := by
  have hbp : backupPhase deliver ⟨true, true, some d, none⟩ = false := by
    simp [backupPhase, hdeliver]
  have hstateLs : (executeDuressActions deliver parseLogs printLogs
      ⟨true, true, some d, none⟩ now geo st).1.ls
      = lsSet (wipeAllData st).ls duressLogsKey
          (printLogs (getDuressLogs parseLogs st ++ [⟨now, geo, true, false⟩])) := by
    simp only [executeDuressActions, hbp, getDuressLogs, lsGetOr_wipe,
      Option.isSome_some, Bool.and_true, Bool.true_and, Bool.or_true, Bool.true_or,
      if_true, Bool.and_self, ite_true]
  refine ⟨?_, ?_, ?_, ?_⟩
  · simp [executeDuressActions, hbp]
  · simp [executeDuressActions, hbp]
  · have hv := lsGet_lsSet (wipeAllData st).ls duressLogsKey
      (printLogs (getDuressLogs parseLogs st ++ [⟨now, geo, true, false⟩]))
    rw [show getDuressLogs parseLogs (executeDuressActions deliver parseLogs printLogs
        ⟨true, true, some d, none⟩ now geo st).1
        = parseLogs (lsGetOr (executeDuressActions deliver parseLogs printLogs
            ⟨true, true, some d, none⟩ now geo st).1.ls duressLogsKey jsonEmptyArr)
      from rfl]
    rw [hstateLs, lsGetOr, hv]
    simp only [if_neg hprintNe]
    exact hroundtrip
  · intro deliver'
    refine ⟨backupPhase deliver' ⟨true, true, some d, none⟩, ?_⟩
    simp [executeDuressActions]

def demoParseLogs : List Char → List LogEntry :=
  fun s => if s = ['x'] then [⟨5, none, true, false⟩] else []

def demoPrintLogs : List LogEntry → List Char := fun _ => ['x']

/-- Witness for C6: failing delivery to a concrete destination on an
empty browser state. -/
theorem C6_duress_ordering_and_audit_witness :
    (executeDuressActions (fun _ => .error ()) demoParseLogs demoPrintLogs
        ⟨true, true, some ['e'], none⟩ 5 none ⟨[], [], []⟩).2.2
      = [.backupFinished false, .wipeExecuted, .logAppended]
    ∧ (executeDuressActions (fun _ => .error ()) demoParseLogs demoPrintLogs
        ⟨true, true, some ['e'], none⟩ 5 none ⟨[], [], []⟩).2.1 = ⟨true, false, true⟩
    ∧ getDuressLogs demoParseLogs (executeDuressActions (fun _ => .error ())
        demoParseLogs demoPrintLogs ⟨true, true, some ['e'], none⟩ 5 none
        ⟨[], [], []⟩).1
      = getDuressLogs demoParseLogs ⟨[], [], []⟩ ++ [⟨5, none, true, false⟩]
    ∧ (∀ deliver' : List Char → Except Unit Unit, ∃ sent,
        (executeDuressActions deliver' demoParseLogs demoPrintLogs
          ⟨true, true, some ['e'], none⟩ 5 none ⟨[], [], []⟩).2.2
        = [.backupFinished sent, .wipeExecuted, .logAppended]) :=
  C6_duress_ordering_and_audit (fun _ => .error ()) demoParseLogs demoPrintLogs
    ['e'] 5 none ⟨[], [], []⟩ rfl (by decide) (by decide)

/-! ## C7: the wipe's frame condition -/

/-- C7: `wipeAllData` removes every `l2vault`-prefixed IndexedDB
database, clears sessionStorage, clears every localStorage key other
than `duressLogs`, keeps the raw `duressLogs` value exactly when it is
truthy (a falsy empty-string value reads back as the same empty log),
and the activation log as read through `getDuressLogs` is preserved
unchanged. -/
theorem C7_wipe_frame_condition (st : BrowserState)
    (parseLogs : List Char → List LogEntry) :
    (∀ n ∈ (wipeAllData st).idb, ¬ n.take 7 = l2vaultTag)
    ∧ (wipeAllData st).ss = []
    ∧ (∀ k, k ≠ duressLogsKey → lsGet (wipeAllData st).ls k = none)
    ∧ lsGet (wipeAllData st).ls duressLogsKey
        = (match lsGet st.ls duressLogsKey with
            | none => none
            | some v => if v = [] then none else some v)
    ∧ getDuressLogs parseLogs (wipeAllData st) = getDuressLogs parseLogs st := by
  refine ⟨?_, rfl, ?_, ?_, ?_⟩
  · intro n hn
    rw [wipeAllData] at hn
    simp only [List.mem_filter] at hn
    simpa using hn.2
  · intro k hk
    rw [wipeAllData]
    match h : lsGet st.ls duressLogsKey with
    | none => simp [h, lsGet]
    | some v =>
        by_cases hv : v = []
        · simp [h, hv, lsGet]
        · simp [h, hv, lsGet, hk, Ne.symm hk]
  · rw [wipeAllData]
    match h : lsGet st.ls duressLogsKey with
    | none => simp [h, lsGet]
    | some v =>
        by_cases hv : v = []
        · simp [h, hv, lsGet]
        · simp [h, hv, lsGet]
  · rw [getDuressLogs, getDuressLogs, lsGetOr_wipe]

/-! ## C10: panic-password recognition (isPanicPassword, disableDuressMode) -/

def duressModeKey : List Char :=
  ['d', 'u', 'r', 'e', 's', 's', 'M', 'o', 'd', 'e']

def duressPasswordKey : List Char :=
  ['d', 'u', 'r', 'e', 's', 's', 'P', 'a', 's', 's', 'w', 'o', 'r', 'd', 'H', 'a', 's', 'h']

def duressCredentialsKey : List Char :=
  ['d', 'u', 'r', 'e', 's', 's', 'C', 'r', 'e', 'd', 'e', 'n', 't', 'i', 'a', 'l', 's']

/-- `isPanicPassword(passwordHash)`: `storedHash && storedHash === passwordHash`,
used in a boolean position — truthy exactly when a non-null, non-empty
stored hash equals the candidate. -/
def isPanicPassword (st : BrowserState) (passwordHash : List Char) : Bool :=
  match lsGet st.ls duressPasswordKey with
  | none => false
  | some stored => !(stored = [] : Bool) && (stored = passwordHash : Bool)

/-- `disableDuressMode()`: set the flag to `'false'` and remove the
stored panic verifier and the decoy credentials. -/
def disableDuressMode (st : BrowserState) : BrowserState :=
  { st with ls := lsRemove (lsRemove
      (lsSet st.ls duressModeKey ['f', 'a', 'l', 's', 'e'])
      duressPasswordKey) duressCredentialsKey }

theorem lsGet_lsRemove_ne (k k' : List Char) (hne : k' ≠ k) :
    ∀ st : List (List Char × List Char), lsGet (lsRemove st k) k' = lsGet st k'
  | [] => rfl
  | (k₀, v₀) :: rest => by
      by_cases h : k₀ = k
      · simp only [lsRemove, List.filter_cons]
        rw [if_neg (by simp [h])]
        rw [show lsGet ((k₀, v₀) :: rest) k' = if k₀ = k' then some v₀ else lsGet rest k'
          from rfl]
        rw [if_neg (by rw [h]; exact fun hc => hne hc.symm)]
        exact lsGet_lsRemove_ne k k' hne rest
      · simp only [lsRemove, List.filter_cons]
        rw [if_pos (by simp [h])]
        rw [show List.filter (fun p => !(p.1 = k : Bool)) rest = lsRemove rest k
          from rfl]
        rw [show lsGet ((k₀, v₀) :: lsRemove rest k) k'
            = if k₀ = k' then some v₀ else lsGet (lsRemove rest k) k' from rfl]
        rw [show lsGet ((k₀, v₀) :: rest) k' = if k₀ = k' then some v₀ else lsGet rest k'
          from rfl]
        by_cases hk : k₀ = k'
        · rw [if_pos hk, if_pos hk]
        · rw [if_neg hk, if_neg hk]
          exact lsGet_lsRemove_ne k k' hne rest

/-- C10 counterexample to the claim as stated: with an empty string
stored as the panic verifier, a candidate equal to the stored verifier
is still rejected (JS `storedHash && ...` is falsy on `''`). -/
theorem C10_counterexample :
    lsGet (⟨[], [(duressPasswordKey, [])], []⟩ : BrowserState).ls duressPasswordKey
      = some []
    ∧ isPanicPassword ⟨[], [(duressPasswordKey, [])], []⟩ [] = false := by
  decide

/-- C10 as amended: `isPanicPassword` is true exactly when a NONEMPTY
verifier is stored and equals the candidate; with no stored verifier
it rejects every candidate, and after `disableDuressMode` (which
removes the verifier and the decoy credentials) it rejects every
candidate. -/
theorem C10_panic_password_recognition (st : BrowserState) (cand : List Char) :
    (isPanicPassword st cand = true
      ↔ ∃ s, lsGet st.ls duressPasswordKey = some s ∧ s ≠ [] ∧ s = cand)
    ∧ (lsGet st.ls duressPasswordKey = none → isPanicPassword st cand = false)
    ∧ isPanicPassword (disableDuressMode st) cand = false
    ∧ lsGet (disableDuressMode st).ls duressCredentialsKey = none := by
  have hrm : lsGet (disableDuressMode st).ls duressPasswordKey = none := by
    rw [disableDuressMode]
    rw [lsGet_lsRemove_ne duressCredentialsKey duressPasswordKey (by decide)]
    exact lsGet_lsRemove _ _
  refine ⟨?_, ?_, ?_, ?_⟩
  · rw [isPanicPassword]
    match h : lsGet st.ls duressPasswordKey with
    | none => simp
    | some stored =>
        constructor
        · intro hb
          simp only [Bool.and_eq_true, Bool.not_eq_true', decide_eq_false_iff_not,
            decide_eq_true_eq] at hb
          exact ⟨stored, rfl, hb.1, hb.2⟩
        · rintro ⟨s, hs, hne, heq⟩
          cases hs
          subst heq
          simp [hne]
  · intro h
    rw [isPanicPassword, h]
  · rw [isPanicPassword, hrm]
  · rw [disableDuressMode]
    exact lsGet_lsRemove _ _

/-- Witness for C10 as amended: a stored nonempty verifier matches
exactly its own hash. -/
theorem C10_panic_password_recognition_witness :
    (isPanicPassword ⟨[], [(duressPasswordKey, ['h', '1'])], []⟩ ['h', '1'] = true
      ↔ ∃ s, lsGet [(duressPasswordKey, ['h', '1'])] duressPasswordKey = some s
          ∧ s ≠ [] ∧ s = ['h', '1'])
    ∧ (lsGet ([] : List (List Char × List Char)) duressPasswordKey = none →
        isPanicPassword ⟨[], [], []⟩ ['h', '1'] = false)
    ∧ isPanicPassword (disableDuressMode ⟨[], [(duressPasswordKey, ['h', '1'])], []⟩)
        ['h', '1'] = false
    ∧ lsGet (disableDuressMode
        ⟨[], [(duressPasswordKey, ['h', '1'])], []⟩).ls duressCredentialsKey = none :=
  ⟨(C10_panic_password_recognition ⟨[], [(duressPasswordKey, ['h', '1'])], []⟩
      ['h', '1']).1,
   (C10_panic_password_recognition ⟨[], [], []⟩ ['h', '1']).2.1,
   (C10_panic_password_recognition ⟨[], [(duressPasswordKey, ['h', '1'])], []⟩
      ['h', '1']).2.2.1,
   (C10_panic_password_recognition ⟨[], [(duressPasswordKey, ['h', '1'])], []⟩
      ['h', '1']).2.2.2⟩

/-! ## C8: time-window access evaluation (time-access.js)

Dates are modelled by an absolute day index plus hours and minutes;
`getDay` is the day index mod 7 (consistent with JS weekday arithmetic
under `setDate`), and `HH:MM` strings are compared with the JS
lexicographic string order.  The `while (daysToAdd <= 7)` loop is the
bounded scan over `[1..7]`, so the model is structurally terminating. -/

/-- `String(n).padStart(2, '0')`. -/
def pad2 (n : Nat) : List Char := if n < 10 then '0' :: natRepr n else natRepr n

structure JsDate where
  dayIndex : Nat
  hours : Nat
  minutes : Nat
  deriving DecidableEq, Repr

def getDay (d : JsDate) : Nat := d.dayIndex % 7

/-- The `` `${HH}:${MM}` `` current-time string. -/
def currentTimeStr (d : JsDate) : List Char := pad2 d.hours ++ ':' :: pad2 d.minutes

structure Schedule where
  days : List Nat
  startTime : List Char
  endTime : List Char
  deriving DecidableEq, Repr

structure AccessRule where
  credentialId : Nat
  enabled : Bool
  schedule : Schedule
  action : List Char
  deriving DecidableEq, Repr

structure AccessResult where
  accessible : Bool
  reason : Option (List Char)
  nextWindow : Option JsDate
  deriving DecidableEq, Repr

/-- First component of `startTime.split(':').map(Number)`. -/
def timeHours (t : List Char) : Nat :=
  parseDigits (t.takeWhile fun c => !(c = ':' : Bool))

/-- Second component of `startTime.split(':').map(Number)`. -/
def timeMinutes (t : List Char) : Nat :=
  parseDigits (((t.dropWhile fun c => !(c = ':' : Bool)).drop 1).takeWhile
    fun c => !(c = ':' : Bool))

/-- `result.setDate(getDate() + daysToAdd); result.setHours(h, m, 0, 0)`. -/
def setToStartTime (d : JsDate) (daysToAdd : Nat) (startTime : List Char) : JsDate :=
  { dayIndex := d.dayIndex + daysToAdd
    hours := timeHours startTime
    minutes := timeMinutes startTime }

/-- The consecutive candidate offsets `[a, a+1, ..., a+len-1]`. -/
def consecFrom (a : Nat) : Nat → List Nat
  | 0 => []
  | n + 1 => a :: consecFrom (a + 1) n

/-- The scan of the `while (daysToAdd <= 7)` loop: the first offset
whose wrapped weekday is an allowed day. -/
def firstAllowed (days : List Nat) (weekday : Nat) : List Nat → Option Nat
  | [] => none
  | k :: ks =>
      if days.contains ((weekday + k) % 7) then some k
      else firstAllowed days weekday ks

/-- `calculateNextWindow(schedule, from)`. -/
def calculateNextWindow (s : Schedule) (d : JsDate) : Option JsDate :=
  if s.days.contains (getDay d) && jsStrLt (currentTimeStr d) s.startTime then
    some (setToStartTime d 0 s.startTime)
  else
    match firstAllowed s.days (getDay d) (consecFrom 1 7) with
    | some k => some (setToStartTime d k s.startTime)
    | none => none

def DAY_NAMES : List (List Char) :=
  [['D', 'o', 'm'], ['S', 'e', 'g'], ['T', 'e', 'r'], ['Q', 'u', 'a'],
   ['Q', 'u', 'i'], ['S', 'e', 'x'], ['S', 'á', 'b']]

/-- Availability message listing the allowed days (a JS out-of-range
index renders as `undefined`). -/
def reasonDays (days : List Nat) : List Char :=
  ("Disponível apenas: ").data ++
    List.intercalate [',', ' ']
      (days.map fun dd =>
        DAY_NAMES.getD dd ['u', 'n', 'd', 'e', 'f', 'i', 'n', 'e', 'd'])

def reasonHours (s : Schedule) : List Char :=
  ("Disponível das ").data ++ s.startTime ++ (" às ").data ++ s.endTime

/-- `isCredentialAccessible`, with the `rules[credentialId] || null`
storage lookup supplied as the `Option` argument. -/
def isCredentialAccessible (rule : Option AccessRule) (d : JsDate) : AccessResult :=
  match rule with
  | none => ⟨true, none, none⟩
  | some r =>
      if !r.enabled then ⟨true, none, none⟩
      else
        let currentTime := currentTimeStr d
        let dayAllowed := r.schedule.days.contains (getDay d)
        let timeInWindow := jsStrGe currentTime r.schedule.startTime
          && jsStrLe currentTime r.schedule.endTime
        if dayAllowed && timeInWindow then ⟨true, none, none⟩
        else
          ⟨false,
           some (if !dayAllowed then reasonDays r.schedule.days else reasonHours r.schedule),
           calculateNextWindow r.schedule d⟩

theorem firstAllowed_some_spec (days : List Nat) (w : Nat) :
    ∀ (a len k : Nat), firstAllowed days w (consecFrom a len) = some k →
      a ≤ k ∧ k < a + len ∧ days.contains ((w + k) % 7) = true
      ∧ ∀ j, a ≤ j → j < k → days.contains ((w + j) % 7) = false := by
  intro a len
  induction len generalizing a with
  | zero => intro k h; simp [consecFrom, firstAllowed] at h
  | succ n ih =>
      intro k h
      rw [consecFrom, firstAllowed] at h
      by_cases hc : days.contains ((w + a) % 7)
      · rw [if_pos hc] at h
        cases h
        exact ⟨le_refl _, by omega, hc, fun j h1 h2 => absurd h1 (by omega)⟩
      · rw [if_neg hc] at h
        obtain ⟨h1, h2, h3, h4⟩ := ih (a + 1) k h
        refine ⟨by omega, by omega, h3, ?_⟩
        intro j hj1 hj2
        rcases Nat.eq_or_lt_of_le hj1 with he | hlt
        · subst he
          simpa using hc
        · exact h4 j (by omega) hj2

theorem firstAllowed_none_spec (days : List Nat) (w : Nat) :
    ∀ (a len : Nat), firstAllowed days w (consecFrom a len) = none →
      ∀ j, a ≤ j → j < a + len → days.contains ((w + j) % 7) = false := by
  intro a len
  induction len generalizing a with
  | zero => intro _ j h1 h2; omega
  | succ n ih =>
      intro h j h1 h2
      rw [consecFrom, firstAllowed] at h
      by_cases hc : days.contains ((w + a) % 7)
      · rw [if_pos hc] at h
        cases h
      · rw [if_neg hc] at h
        rcases Nat.eq_or_lt_of_le h1 with he | hlt
        · subst he
          simpa using hc
        · exact ih (a + 1) h j (by omega) (by omega)

theorem firstAllowed_nil (w : Nat) : ∀ ks, firstAllowed [] w ks = none
  | [] => rfl
  | k :: ks => by
      rw [firstAllowed]
      simp only [List.contains, List.elem_nil, if_false, Bool.false_eq_true]
      exact firstAllowed_nil w ks

/-- C8: scheduler evaluation.  A missing or disabled rule is always
accessible; an enabled rule is accessible exactly when the weekday is
allowed and the `HH:MM` time lies inclusively between `startTime` and
`endTime` under JS string comparison.  When inaccessible: today at
`startTime` if today is allowed and the window has not started;
otherwise the scan over the bounded offsets `1..7` (wrapping mod 7)
finds the NEAREST allowed weekday, and yields no window at all when no
offset within 7 days is allowed — in particular when `days` is empty. -/
theorem C8_access_scheduler (d : JsDate) :
    (isCredentialAccessible none d = ⟨true, none, none⟩)
    ∧ (∀ r : AccessRule, r.enabled = false →
        isCredentialAccessible (some r) d = ⟨true, none, none⟩)
    ∧ (∀ r : AccessRule, r.enabled = true →
        ((isCredentialAccessible (some r) d).accessible = true
          ↔ (r.schedule.days.contains (getDay d) = true
             ∧ jsStrGe (currentTimeStr d) r.schedule.startTime = true
             ∧ jsStrLe (currentTimeStr d) r.schedule.endTime = true)))
    ∧ (∀ r : AccessRule, r.enabled = true →
        r.schedule.days.contains (getDay d) = true →
        jsStrLt (currentTimeStr d) r.schedule.startTime = true →
        (isCredentialAccessible (some r) d).accessible = false
        ∧ (isCredentialAccessible (some r) d).nextWindow
            = some (setToStartTime d 0 r.schedule.startTime))
    ∧ (∀ r : AccessRule, r.enabled = true →
        (isCredentialAccessible (some r) d).accessible = false →
        ¬ (r.schedule.days.contains (getDay d) = true
           ∧ jsStrLt (currentTimeStr d) r.schedule.startTime = true) →
        (∀ w, (isCredentialAccessible (some r) d).nextWindow = some w →
            ∃ k, 1 ≤ k ∧ k ≤ 7 ∧ w = setToStartTime d k r.schedule.startTime
              ∧ r.schedule.days.contains ((getDay d + k) % 7) = true
              ∧ ∀ j, 1 ≤ j → j < k →
                  r.schedule.days.contains ((getDay d + j) % 7) = false)
        ∧ ((isCredentialAccessible (some r) d).nextWindow = none →
            ∀ j, 1 ≤ j → j ≤ 7 →
              r.schedule.days.contains ((getDay d + j) % 7) = false))
    ∧ (∀ r : AccessRule, r.enabled = true → r.schedule.days = [] →
        (isCredentialAccessible (some r) d).accessible = false
        ∧ (isCredentialAccessible (some r) d).nextWindow = none) := by
  refine ⟨rfl, ?_, ?_, ?_, ?_, ?_⟩
  · intro r hr
    rw [isCredentialAccessible, hr]
    rfl
  · intro r hr
    rw [isCredentialAccessible, hr]
    simp only [Bool.not_true, Bool.false_eq_true, if_false]
    by_cases hcond : (r.schedule.days.contains (getDay d)
        && (jsStrGe (currentTimeStr d) r.schedule.startTime
            && jsStrLe (currentTimeStr d) r.schedule.endTime)) = true
    · rw [if_pos hcond]
      simp only [Bool.and_eq_true] at hcond
      exact iff_of_true rfl hcond
    · rw [if_neg hcond]
      simp only [Bool.and_eq_true] at hcond
      exact iff_of_false (by simp) hcond
  · intro r hr hday hlt
    have hge : jsStrGe (currentTimeStr d) r.schedule.startTime = false := by
      rw [jsStrGe, hlt]
      rfl
    rw [isCredentialAccessible, hr]
    simp only [Bool.not_true, Bool.false_eq_true, if_false]
    rw [if_neg (by simp [hge])]
    refine ⟨rfl, ?_⟩
    simp only [AccessResult.nextWindow]
    rw [calculateNextWindow, if_pos (by rw [hday, hlt]; rfl)]
  · intro r hr hina hnot
    have hcond : (r.schedule.days.contains (getDay d)
        && jsStrLt (currentTimeStr d) r.schedule.startTime) = false := by
      cases hc1 : r.schedule.days.contains (getDay d) with
      | false => simp
      | true =>
          cases hc2 : jsStrLt (currentTimeStr d) r.schedule.startTime with
          | false => simp
          | true => exact absurd ⟨hc1, hc2⟩ hnot
    have hnw : (isCredentialAccessible (some r) d).nextWindow
        = calculateNextWindow r.schedule d := by
      rw [isCredentialAccessible, hr] at hina ⊢
      simp only [Bool.not_true, Bool.false_eq_true, if_false] at hina ⊢
      by_cases hacc : (r.schedule.days.contains (getDay d)
          && (jsStrGe (currentTimeStr d) r.schedule.startTime
              && jsStrLe (currentTimeStr d) r.schedule.endTime)) = true
      · rw [if_pos hacc] at hina
        cases hina
      · rw [if_neg hacc]
    constructor
    · intro w hw
      rw [hnw, calculateNextWindow, if_neg (by rw [hcond]; exact Bool.false_ne_true)] at hw
      match hfa : firstAllowed r.schedule.days (getDay d) (consecFrom 1 7) with
      | none => rw [hfa] at hw; cases hw
      | some k =>
          rw [hfa] at hw
          cases hw
          obtain ⟨h1, h2, h3, h4⟩ := firstAllowed_some_spec _ _ 1 7 k hfa
          exact ⟨k, h1, by omega, rfl, h3, h4⟩
    · intro hnone j hj1 hj2
      rw [hnw, calculateNextWindow, if_neg (by rw [hcond]; exact Bool.false_ne_true)] at hnone
      match hfa : firstAllowed r.schedule.days (getDay d) (consecFrom 1 7) with
      | some k => rw [hfa] at hnone; cases hnone
      | none => exact firstAllowed_none_spec _ _ 1 7 hfa j hj1 (by omega)
  · intro r hr hdays
    rw [isCredentialAccessible, hr]
    simp only [Bool.not_true, Bool.false_eq_true, if_false]
    rw [if_neg (by simp [hdays])]
    refine ⟨rfl, ?_⟩
    simp only [AccessResult.nextWindow]
    rw [calculateNextWindow, hdays, if_neg (by simp), firstAllowed_nil]

/-- Witness for C8: the §8 example rule (Mon–Fri 09:00–18:00)
evaluated on a Saturday at 10:00 is inaccessible with the next window
two days later at the start time, and on a Monday at 08:00 the window
is later the same day. -/
theorem C8_access_scheduler_witness :
    (isCredentialAccessible none ⟨6, 10, 0⟩ = ⟨true, none, none⟩)
    ∧ isCredentialAccessible
        (some ⟨1, false, ⟨[1, 2, 3, 4, 5], ('0' :: '9' :: ':' :: '0' :: '0' :: []),
          ('1' :: '8' :: ':' :: '0' :: '0' :: [])⟩, ['h']⟩) ⟨6, 10, 0⟩
        = ⟨true, none, none⟩
    ∧ ((isCredentialAccessible
        (some ⟨1, true, ⟨[1, 2, 3, 4, 5], ('0' :: '9' :: ':' :: '0' :: '0' :: []),
          ('1' :: '8' :: ':' :: '0' :: '0' :: [])⟩, ['h']⟩) ⟨6, 10, 0⟩).accessible = true
        ↔ ([1, 2, 3, 4, 5].contains (getDay ⟨6, 10, 0⟩) = true
           ∧ jsStrGe (currentTimeStr ⟨6, 10, 0⟩)
              ('0' :: '9' :: ':' :: '0' :: '0' :: []) = true
           ∧ jsStrLe (currentTimeStr ⟨6, 10, 0⟩)
              ('1' :: '8' :: ':' :: '0' :: '0' :: []) = true))
    ∧ ((isCredentialAccessible
        (some ⟨1, true, ⟨[1, 2, 3, 4, 5], ('0' :: '9' :: ':' :: '0' :: '0' :: []),
          ('1' :: '8' :: ':' :: '0' :: '0' :: [])⟩, ['h']⟩) ⟨8, 8, 0⟩).accessible = false
        ∧ (isCredentialAccessible
        (some ⟨1, true, ⟨[1, 2, 3, 4, 5], ('0' :: '9' :: ':' :: '0' :: '0' :: []),
          ('1' :: '8' :: ':' :: '0' :: '0' :: [])⟩, ['h']⟩) ⟨8, 8, 0⟩).nextWindow
          = some (setToStartTime ⟨8, 8, 0⟩ 0 ('0' :: '9' :: ':' :: '0' :: '0' :: [])))
    ∧ (∀ w, (isCredentialAccessible
        (some ⟨1, true, ⟨[1, 2, 3, 4, 5], ('0' :: '9' :: ':' :: '0' :: '0' :: []),
          ('1' :: '8' :: ':' :: '0' :: '0' :: [])⟩, ['h']⟩) ⟨6, 10, 0⟩).nextWindow
          = some w →
        ∃ k, 1 ≤ k ∧ k ≤ 7
          ∧ w = setToStartTime ⟨6, 10, 0⟩ k ('0' :: '9' :: ':' :: '0' :: '0' :: [])
          ∧ [1, 2, 3, 4, 5].contains ((getDay ⟨6, 10, 0⟩ + k) % 7) = true
          ∧ ∀ j, 1 ≤ j → j < k →
              [1, 2, 3, 4, 5].contains ((getDay ⟨6, 10, 0⟩ + j) % 7) = false)
    ∧ ((isCredentialAccessible
        (some ⟨1, true, ⟨[], ('0' :: '9' :: ':' :: '0' :: '0' :: []),
          ('1' :: '8' :: ':' :: '0' :: '0' :: [])⟩, ['h']⟩) ⟨6, 10, 0⟩).accessible = false
        ∧ (isCredentialAccessible
        (some ⟨1, true, ⟨[], ('0' :: '9' :: ':' :: '0' :: '0' :: []),
          ('1' :: '8' :: ':' :: '0' :: '0' :: [])⟩, ['h']⟩) ⟨6, 10, 0⟩).nextWindow
          = none) :=
  ⟨(C8_access_scheduler ⟨6, 10, 0⟩).1,
   (C8_access_scheduler ⟨6, 10, 0⟩).2.1 _ rfl,
   (C8_access_scheduler ⟨6, 10, 0⟩).2.2.1 _ rfl,
   (C8_access_scheduler ⟨8, 8, 0⟩).2.2.2.1 _ rfl (by decide) (by decide),
   ((C8_access_scheduler ⟨6, 10, 0⟩).2.2.2.2.1 _ rfl (by decide) (by decide)).1,
   (C8_access_scheduler ⟨6, 10, 0⟩).2.2.2.2.2 _ rfl rfl⟩

/-! ## C9: TOTP generation (totp.js)

The HMAC primitive (`crypto.subtle.sign`) is an abstract parameter;
the counter arithmetic, big-endian packing, base32 decoding, dynamic
truncation and zero padding are concrete.  JS 32-bit `<<`/`|`
arithmetic inside `base32Decode` appears as explicit `% 2 ^ 32`; the
masked byte extractions of the truncation appear as `% 128` / `% 256`. -/

def base32Alphabet : List Char :=
  ['A', 'B', 'C', 'D', 'E', 'F', 'G', 'H', 'I', 'J', 'K', 'L', 'M', 'N', 'O', 'P',
   'Q', 'R', 'S', 'T', 'U', 'V', 'W', 'X', 'Y', 'Z', '2', '3', '4', '5', '6', '7']

/-- `input.replace(/=+$/, '')`. -/
def dropTrailingEq (cs : List Char) : List Char :=
  (cs.reverse.dropWhile (fun c => c = '=')).reverse

/-- The accumulator loop of `base32Decode`: 5 bits per character,
emitting a byte whenever at least 8 bits are buffered; characters
outside the alphabet are skipped. -/
def base32DecodeAux : List Char → Nat → Nat → List Nat
  | [], _, _ => []
  | c :: cs, bits, value =>
      let idx := base32Alphabet.indexOf c
      if 32 ≤ idx then base32DecodeAux cs bits value
      else
        let value' := (value * 32 + idx) % 2 ^ 32
        let bits' := bits + 5
        if 8 ≤ bits' then
          (value' / 2 ^ (bits' - 8)) % 256 :: base32DecodeAux cs (bits' - 8) value'
        else base32DecodeAux cs bits' value'

/-- `base32Decode(input)` (RFC 4648, case-insensitive, trailing `=`
stripped, invalid characters skipped). -/
def base32Decode (input : List Char) : List Nat :=
  base32DecodeAux ((dropTrailingEq input).map Char.toUpper) 0 0

/-- Hash algorithm handed to the HMAC primitive. -/
inductive TotpAlg where
  | sha1
  | sha256
  | sha512
  deriving DecidableEq, Repr

/-- The `algoMap[algorithm] || 'SHA-1'` lookup. -/
def algoMap (alg : List Char) : TotpAlg :=
  if alg = ['S', 'H', 'A', '-', '1'] then .sha1
  else if alg = ['S', 'H', 'A', '-', '2', '5', '6'] then .sha256
  else if alg = ['S', 'H', 'A', '-', '5', '1', '2'] then .sha512
  else .sha1

/-- `setBigUint64(0, BigInt(counter), false)`: the counter as 8
big-endian bytes (wrapping at 2^64 like `BigUint64`). -/
def be8 (c : Nat) : List Nat :=
  [c / 2 ^ 56 % 256, c / 2 ^ 48 % 256, c / 2 ^ 40 % 256, c / 2 ^ 32 % 256,
   c / 2 ^ 24 % 256, c / 2 ^ 16 % 256, c / 2 ^ 8 % 256, c % 256]

/-- The fields of a TOTP entry that `generateTOTP` reads. -/
structure TOTPEntry where
  secret : List Char
  algorithm : List Char
  digits : Nat
  period : Nat
  deriving DecidableEq, Repr

/-- `code.toString().padStart(digits, '0')`. -/
def padStartZeros (width : Nat) (s : List Char) : List Char :=
  List.replicate (width - s.length) '0' ++ s

/-- `generateTOTP(entry, time)`; `hmacF` models `generateHMAC`'s call
into Web Crypto, `nowSec` models `Math.floor(Date.now() / 1000)`.
JS `time || now` makes a zero timestamp fall back to the clock, and
`entry.period || 30`, `entry.digits || 6` default falsy fields. -/
def generateTOTP (hmacF : TotpAlg → List Nat → List Nat → List Nat)
    (nowSec : Nat) (entry : TOTPEntry) (time : Nat) : List Char :=
  let timestamp := if time = 0 then nowSec else time
  let period := if entry.period = 0 then 30 else entry.period
  let counter := timestamp / period
  let secretBytes := base32Decode entry.secret
  let hmac := hmacF (algoMap entry.algorithm) secretBytes (be8 counter)
  let offset := (hmac.getLast?.getD 0) % 16
  let digits := if entry.digits = 0 then 6 else entry.digits
  let code := ((hmac.getD offset 0 % 128) * 2 ^ 24
    + hmac.getD (offset + 1) 0 % 256 * 2 ^ 16
    + hmac.getD (offset + 2) 0 % 256 * 2 ^ 8
    + hmac.getD (offset + 3) 0 % 256) % 10 ^ digits
  padStartZeros digits (natRepr code)

/-- RFC 4226 §5.3 dynamic truncation as the claim words it: low
nibble of the last byte as offset, 31 bits from that offset, reduced
mod `10^digits`. -/
def dynamicTruncate (hmac : List Nat) (digits : Nat) : Nat :=
  let offset := (hmac.getLast?.getD 0) % 16
  ((hmac.getD offset 0 % 128) * 2 ^ 24
    + hmac.getD (offset + 1) 0 % 256 * 2 ^ 16
    + hmac.getD (offset + 2) 0 % 256 * 2 ^ 8
    + hmac.getD (offset + 3) 0 % 256) % 10 ^ digits

/-- The pure counter-level pipeline the claim describes. -/
def totpFromCounter (hmacF : TotpAlg → List Nat → List Nat → List Nat)
    (entry : TOTPEntry) (counter : Nat) : List Char :=
  let digits := if entry.digits = 0 then 6 else entry.digits
  padStartZeros digits
    (natRepr (dynamicTruncate
      (hmacF (algoMap entry.algorithm) (base32Decode entry.secret) (be8 counter))
      digits))

theorem natRepr_length_le : ∀ (n k : Nat), 1 ≤ k → n < 10 ^ k →
    (natRepr n).length ≤ k := by
  intro n
  induction n using Nat.strong_induction_on with
  | _ n ih =>
    intro k hk hn
    by_cases h : n < 10
    · rw [natRepr_eq, if_pos h]
      simpa using hk
    · rw [natRepr_eq, if_neg h]
      have hk2 : 2 ≤ k := by
        by_contra hc
        have : k = 1 := by omega
        subst this
        simp at hn
        omega
      have hdiv : n / 10 < n := Nat.div_lt_self (by omega) (by omega)
      have hlt : n / 10 < 10 ^ (k - 1) := by
        have h10 : 10 ^ k = 10 ^ (k - 1) * 10 := by
          rw [← pow_succ]
          congr 1
          omega
        rw [h10] at hn
        exact Nat.div_lt_of_lt_mul (by omega)
      have := ih (n / 10) hdiv (k - 1) (by omega) hlt
      simp only [List.length_append, List.length_singleton]
      omega

/-- C9 counterexample to the claim as stated: at time 0 the code uses
the CURRENT clock instead of `counter = floor(0 / period)` (JS
`time || now` treats the numeric timestamp 0 as absent).  With a
deterministic stand-in digest that reflects its message, the generated
code at `time = 0, now = 59` is the counter-1 code, not the counter-0
code the claim prescribes. -/
theorem C9_counterexample :
    generateTOTP (fun _ _ msg => msg.reverse ++ List.replicate 12 0) 59
        ⟨[], ['S', 'H', 'A', '-', '1'], 6, 30⟩ 0
      = ['7', '7', '7', '2', '1', '6']
    ∧ totpFromCounter (fun _ _ msg => msg.reverse ++ List.replicate 12 0)
        ⟨[], ['S', 'H', 'A', '-', '1'], 6, 30⟩ (0 / 30)
      = ['0', '0', '0', '0', '0', '0']
    ∧ (['7', '7', '7', '2', '1', '6'] : List Char)
      ≠ ['0', '0', '0', '0', '0', '0'] := by
  decide

/-- C9 as amended: for every NONZERO time, `generateTOTP` computes
`counter = floor(time / period)` (period defaulting to 30 when 0),
HMACs the 8-byte big-endian counter with the base32-decoded secret
under the mapped algorithm, applies RFC 4226 dynamic truncation mod
`10^digits` (digits defaulting to 6 when 0) and left-pads with zeros
to exactly `digits` characters; the output depends only on
`(secret, counter, algorithm, digits)`. -/
theorem C9_totp_generation
    (hmacF : TotpAlg → List Nat → List Nat → List Nat)
    (nowSec : Nat) (entry : TOTPEntry) (time : Nat) (ht : time ≠ 0) :
    generateTOTP hmacF nowSec entry time
      = totpFromCounter hmacF entry
          (time / (if entry.period = 0 then 30 else entry.period))
    ∧ (∀ (nowSec₂ : Nat) (entry₂ : TOTPEntry) (time₂ : Nat), time₂ ≠ 0 →
        entry₂.secret = entry.secret →
        algoMap entry₂.algorithm = algoMap entry.algorithm →
        (if entry₂.digits = 0 then 6 else entry₂.digits)
          = (if entry.digits = 0 then 6 else entry.digits) →
        time₂ / (if entry₂.period = 0 then 30 else entry₂.period)
          = time / (if entry.period = 0 then 30 else entry.period) →
        generateTOTP hmacF nowSec₂ entry₂ time₂ = generateTOTP hmacF nowSec entry time)
    ∧ (generateTOTP hmacF nowSec entry time).length
        = (if entry.digits = 0 then 6 else entry.digits) := by
  have hpipe : ∀ (ns : Nat) (e : TOTPEntry) (t : Nat), t ≠ 0 →
      generateTOTP hmacF ns e t
        = totpFromCounter hmacF e (t / (if e.period = 0 then 30 else e.period)) := by
    intro ns e t htz
    rw [generateTOTP, totpFromCounter, dynamicTruncate, if_neg htz]
  refine ⟨hpipe nowSec entry time ht, ?_, ?_⟩
  · intro ns₂ e₂ t₂ ht₂ hsec halg hdig hcnt
    rw [hpipe ns₂ e₂ t₂ ht₂, hpipe nowSec entry time ht]
    rw [totpFromCounter, totpFromCounter, hsec, halg, hdig, hcnt]
  · rw [hpipe nowSec entry time ht, totpFromCounter]
    have hdpos : 1 ≤ (if entry.digits = 0 then 6 else entry.digits) := by
      split <;> omega
    have hcode : dynamicTruncate
        (hmacF (algoMap entry.algorithm) (base32Decode entry.secret)
          (be8 (time / (if entry.period = 0 then 30 else entry.period))))
        (if entry.digits = 0 then 6 else entry.digits)
        < 10 ^ (if entry.digits = 0 then 6 else entry.digits) := by
      rw [dynamicTruncate]
      exact Nat.mod_lt _ (Nat.pos_pow_of_pos _ (by omega))
    have hlen := natRepr_length_le _ _ hdpos hcode
    simp only [padStartZeros, List.length_append, List.length_replicate]
    omega

/-- Witness for C9 as amended: one second after the epoch with a
constant 20-byte digest yields the all-zero 6-digit code. -/
theorem C9_totp_generation_witness :
    (generateTOTP (fun _ _ _ => List.replicate 20 0) 0
        ⟨['G', 'E'], ['S', 'H', 'A', '-', '1'], 6, 30⟩ 1
      = totpFromCounter (fun _ _ _ => List.replicate 20 0)
          ⟨['G', 'E'], ['S', 'H', 'A', '-', '1'], 6, 30⟩ (1 / 30))
    ∧ (generateTOTP (fun _ _ _ => List.replicate 20 0) 0
        ⟨['G', 'E'], ['S', 'H', 'A', '-', '1'], 6, 30⟩ 1).length = 6 :=
  ⟨(C9_totp_generation (fun _ _ _ => List.replicate 20 0) 0
      ⟨['G', 'E'], ['S', 'H', 'A', '-', '1'], 6, 30⟩ 1 (by decide)).1,
   by
    have h := (C9_totp_generation (fun _ _ _ => List.replicate 20 0) 0
      ⟨['G', 'E'], ['S', 'H', 'A', '-', '1'], 6, 30⟩ 1 (by decide)).2.2
    simpa using h⟩

end L2Vault
